import Mathlib

/-!
Verification of the source-aware patch engine of the repository
(`cargo_progress.py`, `troubleshoot.py`, `auto_fix_unmatched_brace.py`,
`fix_retry_wrapper_recursion.py`, `fix_sniper_bot_stages.py`,
`patch_retry_logic_for_buys.py`, `patch_hot_update_file_blacklist.py`).

Texts are modelled as `List Char` (`Text`), files as lists of lines, and
every Python function relevant to the claims is translated into an
executable Lean definition keeping the source's names.  Spec-side
definitions (used to compare the code against the specification's words)
are named `spec...` and documented as such.
-/

set_option maxRecDepth 8192

namespace SCSTB

/- ## Basic text machinery (Python string primitives) -/

/-- A text is a list of characters (a Python `str`). -/
abbrev Text := List Char

/-- The double-quote character `"`. -/
def dquote : Char := Char.ofNat 34

/-- The single-quote character. -/
def squote : Char := Char.ofNat 39

/-- The backslash character. -/
def bslash : Char := Char.ofNat 92

/-- The newline character. -/
def nl : Char := Char.ofNat 10

/-- The structural delimiter characters of the scanner (`'{}()[]'`). -/
def delims : List Char := ['{', '}', '(', ')', '[', ']']

/- ## Lexical Scanner (`troubleshoot.py`, `rust_iter_tokens`, lines 5-36) -/

/-- Lexical state of the scanner: code, `//` comment, `/*` comment, or a
string literal with its opening delimiter.  The Python source keeps three
mutually exclusive booleans `in_sl_comment`, `in_ml_comment`, `in_str`
plus `str_delim`; this inductive is the same state space. -/
inductive ScanState where
  | code : ScanState
  | slComment : ScanState
  | mlComment : ScanState
  | strLit : Char → ScanState
deriving DecidableEq, Repr

/-- Translation of the `while` loop of `rust_iter_tokens`: each step
consumes one or two characters (the Python index `i` advances by 1 or 2),
dispatching on the current lexical state exactly as the source does. -/
def iterTok : ScanState → Text → List Char
  | .slComment, _ => []
  | .mlComment, [] => []
  | .mlComment, c1 :: c2 :: rest =>
      if c1 = '*' ∧ c2 = '/' then iterTok .code rest
      else iterTok .mlComment (c2 :: rest)
  | .mlComment, _ :: rest => iterTok .mlComment rest
  | .strLit _, [] => []
  | .strLit d, c1 :: c2 :: rest =>
      if c1 = bslash then iterTok (.strLit d) rest
      else if c1 = d then iterTok .code (c2 :: rest)
      else iterTok (.strLit d) (c2 :: rest)
  | .strLit d, c :: rest =>
      if c = d then iterTok .code rest else iterTok (.strLit d) rest
  | .code, [] => []
  | .code, c1 :: c2 :: rest =>
      if c1 = '/' ∧ c2 = '/' then []
      else if c1 = '/' ∧ c2 = '*' then iterTok .mlComment rest
      else if c1 = dquote ∨ c1 = squote then iterTok (.strLit c1) (c2 :: rest)
      else if c1 ∈ delims then c1 :: iterTok .code (c2 :: rest)
      else iterTok .code (c2 :: rest)
  | .code, c :: rest =>
      if c = dquote ∨ c = squote then iterTok (.strLit c) rest
      else if c ∈ delims then c :: iterTok .code rest
      else iterTok .code rest

/-- `rust_iter_tokens(line)`: the per-line scanner of `troubleshoot.py`.
Each call starts in fresh `Code` state, exactly as the Python function
initialises all of its state flags to `False`. -/
def rust_iter_tokens (line : Text) : List Char :=
  iterTok .code line

/-- Modelled from the spec (section 4.1): the scanner classifies every
character position with the lexical state in which it is consumed, and
returns the end state.  Transitions follow the spec rules: `//` opens a
line comment to end of line, `/*` and `*/` bracket an unnested block
comment, a quote opens a string literal whose backslash escapes the next
character, and the matching unescaped quote closes it. -/
def specScan : ScanState → Text → List (Char × ScanState) × ScanState
  | .slComment, cs => (cs.map (fun c => (c, ScanState.slComment)), .slComment)
  | .mlComment, [] => ([], .mlComment)
  | .mlComment, c1 :: c2 :: rest =>
      if c1 = '*' ∧ c2 = '/' then
        let r := specScan .code rest
        ((c1, .mlComment) :: (c2, .mlComment) :: r.1, r.2)
      else
        let r := specScan .mlComment (c2 :: rest)
        ((c1, .mlComment) :: r.1, r.2)
  | .mlComment, c :: rest =>
      let r := specScan .mlComment rest
      ((c, .mlComment) :: r.1, r.2)
  | .strLit d, [] => ([], .strLit d)
  | .strLit d, c1 :: c2 :: rest =>
      if c1 = bslash then
        let r := specScan (.strLit d) rest
        ((c1, .strLit d) :: (c2, .strLit d) :: r.1, r.2)
      else if c1 = d then
        let r := specScan .code (c2 :: rest)
        ((c1, .strLit d) :: r.1, r.2)
      else
        let r := specScan (.strLit d) (c2 :: rest)
        ((c1, .strLit d) :: r.1, r.2)
  | .strLit d, c :: rest =>
      if c = d then
        let r := specScan .code rest
        ((c, .strLit d) :: r.1, r.2)
      else
        let r := specScan (.strLit d) rest
        ((c, .strLit d) :: r.1, r.2)
  | .code, [] => ([], .code)
  | .code, c1 :: c2 :: rest =>
      if c1 = '/' ∧ c2 = '/' then
        let r := specScan .slComment rest
        ((c1, .slComment) :: (c2, .slComment) :: r.1, r.2)
      else if c1 = '/' ∧ c2 = '*' then
        let r := specScan .mlComment rest
        ((c1, .mlComment) :: (c2, .mlComment) :: r.1, r.2)
      else if c1 = dquote ∨ c1 = squote then
        let r := specScan (.strLit c1) (c2 :: rest)
        ((c1, .strLit c1) :: r.1, r.2)
      else
        let r := specScan .code (c2 :: rest)
        ((c1, .code) :: r.1, r.2)
  | .code, c :: rest =>
      if c = dquote ∨ c = squote then
        let r := specScan (.strLit c) rest
        ((c, .strLit c) :: r.1, r.2)
      else
        let r := specScan .code rest
        ((c, .code) :: r.1, r.2)

/-- The tokens of an annotated character sequence: exactly one token per
delimiter character classified as `Code`, no token for any other
character. -/
def tokensOfAnn (ann : List (Char × ScanState)) : List Char :=
  ann.filterMap (fun p => if p.2 = ScanState.code ∧ p.1 ∈ delims then some p.1 else none)

/-- Modelled from the spec (section 4.1): the token stream of one line
started in a given lexical state. -/
def specLineTokens (st : ScanState) (line : Text) : List Char :=
  tokensOfAnn (specScan st line).1

/-- Modelled from the spec (section 4.1): the carried end state of one
line; a line comment resets to `Code` at line end. -/
def specLineEnd (st : ScanState) (line : Text) : ScanState :=
  if (specScan st line).2 = ScanState.slComment then .code else (specScan st line).2

@[simp]
theorem tokensOfAnn_nil : tokensOfAnn [] = [] := rfl

@[simp]
theorem tokensOfAnn_cons (c : Char) (s : ScanState) (l : List (Char × ScanState)) :
    tokensOfAnn ((c, s) :: l) =
      if s = ScanState.code ∧ c ∈ delims then c :: tokensOfAnn l else tokensOfAnn l := by
  by_cases h : s = ScanState.code ∧ c ∈ delims <;>
    simp [tokensOfAnn, List.filterMap_cons, h]

@[simp]
theorem tokensOfAnn_map_sl (cs : Text) :
    tokensOfAnn (cs.map (fun c => (c, ScanState.slComment))) = [] := by
  induction cs with
  | nil => rfl
  | cons c rest ih => simpa using ih

/-- Equivalence of the source scanner with the spec scanner: the token
stream of `rust_iter_tokens` is exactly the delimiter characters that the
spec classification marks as `Code`. -/
theorem iterTok_eq_specLineTokens (st : ScanState) (cs : Text) :
    iterTok st cs = specLineTokens st cs := by
  induction st, cs using iterTok.induct <;>
    (simp only [specLineTokens, iterTok, specScan] at *) <;>
    (try split_ifs) <;> simp_all

/- ## Whole-file scan (`troubleshoot.py`, `scan_file`, lines 38-53) -/

/-- Python `'([{'`. -/
def openDelims : List Char := ['(', '[', '{']

/-- Python `')]}'`. -/
def closeDelims : List Char := [')', ']', '}']

/-- The message recorded for an unmatched closing delimiter. -/
def unmatchedMsg (t : Char) : Text :=
  ("Unmatched closing ").toList ++ [t]

/-- The inner loop of `scan_file`: processes the tokens of line `ln`,
threading the depth counter and collecting `(line, token, depth)` events
and `bad` records exactly as the source does. -/
def scanTokens : Nat → Int → List Char → (List (Nat × Char × Int)) × (List (Nat × Text)) × Int
  | _, d, [] => ([], [], d)
  | ln, d, t :: ts =>
      if t ∈ openDelims then
        let r := scanTokens ln (d + 1) ts
        ((ln, t, d + 1) :: r.1, r.2.1, r.2.2)
      else if t ∈ closeDelims then
        let bd : List (Nat × Text) := if d = 0 then [(ln, unmatchedMsg t)] else []
        let r := scanTokens ln (d - 1) ts
        ((ln, t, d - 1) :: r.1, bd ++ r.2.1, r.2.2)
      else
        scanTokens ln d ts

/-- The outer loop of `scan_file` over the lines, numbered from 1.  Note
that each line is scanned by `rust_iter_tokens` starting from a fresh
lexical state: only the depth counter is carried between lines. -/
def scanFileGo : Nat → Int → List Text → (List (Nat × Char × Int)) × (List (Nat × Text)) × Int
  | _, d, [] => ([], [], d)
  | ln, d, l :: ls =>
      let r1 := scanTokens ln d (rust_iter_tokens l)
      let r2 := scanFileGo (ln + 1) r1.2.2 ls
      (r1.1 ++ r2.1, r1.2.1 ++ r2.2.1, r2.2.2)

/-- `scan_file`: events, bad-closing records and final depth of the
whole-file delimiter scan. -/
def scan_file (lines : List Text) : (List (Nat × Char × Int)) × (List (Nat × Text)) × Int :=
  scanFileGo 1 0 lines

/-- Modelled from the spec (section 4.1): whole-file streaming scan that
carries the lexical end state of each line into the next line. -/
def specScanLines : ScanState → List Text → List Char
  | _, [] => []
  | st, l :: ls => specLineTokens st l ++ specScanLines (specLineEnd st l) ls

theorem mem_tokensOfAnn_delims {t : Char} {ann : List (Char × ScanState)}
    (h : t ∈ tokensOfAnn ann) : t ∈ delims := by
  rcases List.mem_filterMap.mp h with ⟨p, _, hp⟩
  by_cases hc : p.2 = ScanState.code ∧ p.1 ∈ delims
  · rw [if_pos hc] at hp
    cases hp
    exact hc.2
  · rw [if_neg hc] at hp
    cases hp

theorem mem_rust_iter_tokens_delims {t : Char} {l : Text}
    (h : t ∈ rust_iter_tokens l) : t ∈ delims := by
  simp only [rust_iter_tokens, iterTok_eq_specLineTokens] at h
  exact mem_tokensOfAnn_delims h

theorem scanTokens_tokens (ln : Nat) (d : Int) (ts : List Char)
    (h : ∀ t ∈ ts, t ∈ delims) :
    (scanTokens ln d ts).1.map (fun e => e.2.1) = ts := by
  induction ts generalizing d with
  | nil => rfl
  | cons t ts ih =>
      have ht : t ∈ delims := h t (List.mem_cons_self t ts)
      have hts : ∀ x ∈ ts, x ∈ delims := fun x hx => h x (List.mem_cons_of_mem t hx)
      by_cases ho : t ∈ openDelims
      · simp [scanTokens, ho, ih _ hts]
      · have hc : t ∈ closeDelims := by
          simp only [delims, openDelims, closeDelims, List.mem_cons, List.not_mem_nil,
            or_false] at ht ho ⊢
          tauto
        simp [scanTokens, ho, hc, ih _ hts]

theorem scanFileGo_tokens (ln : Nat) (d : Int) (lines : List Text) :
    (scanFileGo ln d lines).1.map (fun e => e.2.1) =
      (lines.map rust_iter_tokens).flatten := by
  induction lines generalizing ln d with
  | nil => rfl
  | cons l ls ih =>
      simp only [scanFileGo, List.map_cons, List.flatten_cons, List.map_append]
      rw [scanTokens_tokens _ _ _ (fun t ht => mem_rust_iter_tokens_delims ht), ih]

/- ## Claim C2 -/

/-- The scenario line of the spec:
`let s = "{ not a brace }"; // { also not }`. -/
def exLineC2 : Text :=
  ("let s = \"\x7b not a brace \x7d\"; // \x7b also not \x7d").toList

/-- C2: on a single input line the lexical scanner emits zero tokens for
delimiter characters inside a string literal or comment and exactly one
token per delimiter character in code state — the token stream equals the
`Code`-classified delimiter characters of the spec classification of the
line — and the scenario line `let s = "{ not a brace }"; // { also not }`
yields zero tokens. -/
theorem c2_scanner_code_state_tokens :
    (∀ line : Text, rust_iter_tokens line = specLineTokens ScanState.code line) ∧
      rust_iter_tokens exLineC2 = [] :=
  ⟨fun line => iterTok_eq_specLineTokens ScanState.code line, by decide⟩

/- ## Claim C3 -/

/-- A three-line file whose second line lies inside a block comment that
was opened on the first line. -/
def exFileC3 : List Text :=
  [("/*").toList, ("\x7b").toList, ("*/").toList]

/-- C3 counterexample: the whole-file scan does NOT carry lexical state
across lines.  On the file `/*` / `{` / `*/` the delimiter on the second
line lies inside a block comment opened on line 1 (the carried-state spec
scan emits zero tokens for the whole file), yet `scan_file` emits a token
event for it. -/
theorem c3_counterexample_no_carried_state :
    specScanLines ScanState.code exFileC3 = [] ∧
      (scan_file exFileC3).1 = [(2, '{', 1)] := by
  constructor
  · decide
  · decide

/-- C3 amended: `scan_file` scans every line from a fresh `Code` state,
so the emitted token stream is exactly the concatenation of the per-line
`Code`-state delimiter tokens (each line classified on its own, with no
state carried from previous lines); within a single line no token is
emitted in a non-`Code` state, but a block comment or string literal left
open on an earlier line does not suppress tokens on later lines. -/
theorem c3_amended_fresh_state_per_line (lines : List Text) :
    (scan_file lines).1.map (fun e => e.2.1) =
      (lines.map (fun l => specLineTokens ScanState.code l)).flatten := by
  have h := scanFileGo_tokens 1 0 lines
  rw [scan_file, h]
  congr 1
  exact List.map_congr_left (fun l _ => iterTok_eq_specLineTokens ScanState.code l)

/- ## Python string primitives -/

/-- `t.startswith(p)`. -/
def leadsWith : Text → Text → Bool
  | [], _ => true
  | _ :: _, [] => false
  | p :: ps, t :: ts => p = t && leadsWith ps ts

/-- `p in t` (Python substring containment). -/
def occursIn : Text → Text → Bool
  | p, [] => leadsWith p []
  | p, c :: rest => leadsWith p (c :: rest) || occursIn p rest

/-- Scanning worker of Python `str.find`: the first index `≥ i` at which
`p` starts in the remaining text `u` (whose own first character has index
`i`). -/
def pyFindAux : Text → Text → Nat → Option Nat
  | p, [], i => if leadsWith p [] then some i else none
  | p, c :: rest, i =>
      if leadsWith p (c :: rest) then some i else pyFindAux p rest (i + 1)

/-- `t.find(p)`, with Python's `-1` modelled as `none`. -/
def pyFind (t p : Text) : Option Nat :=
  pyFindAux p t 0

/-- `t.find(p, start)`. -/
def pyFindFrom (t p : Text) (start : Nat) : Option Nat :=
  pyFindAux p (t.drop start) start

theorem leadsWith_iff (p t : Text) : leadsWith p t = true ↔ ∃ r, t = p ++ r := by
  induction p generalizing t with
  | nil => simp [leadsWith]
  | cons c ps ih =>
      cases t with
      | nil => simp [leadsWith]
      | cons d ts =>
          simp only [leadsWith, Bool.and_eq_true, decide_eq_true_eq, ih, List.cons_append,
            List.cons.injEq]
          constructor
          · rintro ⟨rfl, r, rfl⟩
            exact ⟨r, rfl, rfl⟩
          · rintro ⟨r, rfl, rfl⟩
            exact ⟨rfl, r, rfl⟩

theorem occursIn_iff (p t : Text) : occursIn p t = true ↔ ∃ a b, t = a ++ p ++ b := by
  induction t with
  | nil =>
      simp only [occursIn, leadsWith_iff]
      constructor
      · rintro ⟨r, hr⟩
        exact ⟨[], r, hr⟩
      · rintro ⟨a, b, hab⟩
        rcases List.append_eq_nil.mp (List.append_eq_nil.mp hab.symm).1 with ⟨_, h2⟩
        exact ⟨b, by simp_all⟩
  | cons c rest ih =>
      simp only [occursIn, Bool.or_eq_true, leadsWith_iff, ih]
      constructor
      · rintro (⟨r, hr⟩ | ⟨a, b, hab⟩)
        · exact ⟨[], r, by simp [hr]⟩
        · exact ⟨c :: a, b, by simp [hab]⟩
      · rintro ⟨a, b, hab⟩
        cases a with
        | nil => exact Or.inl ⟨b, by simpa using hab⟩
        | cons x xs =>
            simp only [List.cons_append, List.cons.injEq] at hab
            exact Or.inr ⟨xs, b, hab.2⟩

theorem pyFindAux_none_iff (p u : Text) (i : Nat) :
    pyFindAux p u i = none ↔ occursIn p u = false := by
  induction u generalizing i with
  | nil =>
      by_cases h : leadsWith p [] = true <;> simp_all [pyFindAux, occursIn]
  | cons c rest ih =>
      by_cases h : leadsWith p (c :: rest) = true <;>
        simp_all [pyFindAux, occursIn]

theorem pyFindAux_some (p u : Text) (i j : Nat)
    (h : pyFindAux p u i = some j) :
    i ≤ j ∧ j - i ≤ u.length ∧ leadsWith p (u.drop (j - i)) = true := by
  induction u generalizing i with
  | nil =>
      simp only [pyFindAux] at h
      split at h
      · cases h
        simp_all
      · cases h
  | cons c rest ih =>
      simp only [pyFindAux] at h
      split at h
      · cases h
        simp_all
      · obtain ⟨h1, h2, h3⟩ := ih (i + 1) h
        refine ⟨by omega, by simp; omega, ?_⟩
        have hj : j - i = (j - (i + 1)) + 1 := by omega
        rw [hj, List.drop_succ_cons]
        exact h3

/- ## Anchor Locator (`fix_retry_wrapper_recursion.py`, `find_fn_block`,
lines 27-53; `patch_hot_update_file_blacklist.py`, `find_function_block`,
lines 30-55) -/

/-- Error taxonomy of the locator.  The source raises `SystemExit` with
three distinct messages; `could not find opening brace` is kept as its own
constructor (`openDelimNotFound`), noting that a buffer with no opening
delimiter after the marker a fortiori has no matching close. -/
inductive AnchorError where
  | anchorNotFound : AnchorError
  | openDelimNotFound : AnchorError
  | unbalancedAnchor : AnchorError
deriving DecidableEq, Repr

/-- Raw depth of a character sequence: occurrences of `{` minus
occurrences of `}`.  This is the quantity the locator's loop tracks. -/
def rawDepth (cs : Text) : Int :=
  (cs.count '{' : Int) - (cs.count '}' : Int)

/-- The `for i in range(brace_start, len(text))` loop of `find_fn_block`:
every raw `{` increments and every raw `}` decrements the depth counter
(regardless of lexical state), returning `i + 1` the instant the depth
returns to 0. -/
def braceScan : Text → Int → Nat → Option Nat
  | [], _, _ => none
  | c :: rest, d, i =>
      if c = '{' then braceScan rest (d + 1) (i + 1)
      else if c = '}' then
        if d - 1 = 0 then some (i + 1) else braceScan rest (d - 1) (i + 1)
      else braceScan rest d (i + 1)

/-- `find_fn_block(text, fn_signature)`: find the marker, find the first
`{` at or after it, then scan raw braces until the depth returns to 0.
Returns `(brace_start, brace_end_plus_one)`. -/
def find_fn_block (text fnSig : Text) : Except AnchorError (Nat × Nat) :=
  match pyFind text fnSig with
  | none => .error .anchorNotFound
  | some start =>
      match pyFindFrom text ['{'] start with
      | none => .error .openDelimNotFound
      | some bs =>
          match braceScan (text.drop bs) 0 bs with
          | some e => .ok (bs, e)
          | none => .error .unbalancedAnchor

/-- `find_function_block` of `patch_hot_update_file_blacklist.py`: the
same algorithm, returning only the position after the closing brace. -/
def find_function_block (text fnSig : Text) : Except AnchorError Nat :=
  (find_fn_block text fnSig).map (fun p => p.2)

@[simp]
theorem rawDepth_nil : rawDepth [] = 0 := rfl

theorem rawDepth_cons (c : Char) (u : Text) :
    rawDepth (c :: u) =
      rawDepth u + (if c = '{' then 1 else if c = '}' then -1 else 0) := by
  by_cases h : c = '{'
  · simp [rawDepth, List.count_cons, h]
    omega
  · by_cases h2 : c = '}' <;>
      simp [rawDepth, List.count_cons, h, h2, Ne.symm] <;> omega

/-- What a successful raw-depth scan guarantees: the end lies strictly
beyond the start and within the buffer, the scanned span's raw depth
returns the counter exactly to zero there and nowhere earlier, and the
last scanned character is a `}`. -/
theorem braceScan_some {cs : Text} {d : Int} {i e : Nat}
    (h : braceScan cs d i = some e) (hd : 1 ≤ d) :
    i < e ∧ e - i ≤ cs.length ∧ d + rawDepth (cs.take (e - i)) = 0 ∧
      (∀ k < e - i, 0 < d + rawDepth (cs.take k)) ∧
      ∃ r, cs.drop (e - i - 1) = '}' :: r := by
  induction cs generalizing d i with
  | nil => simp [braceScan] at h
  | cons c rest ih =>
      by_cases hc : c = '{'
      · rw [braceScan, if_pos hc] at h
        obtain ⟨h1, h2, h3, h4, h5⟩ := ih h (by omega)
        have hei : 1 ≤ e - i := by omega
        refine ⟨by omega, by simp; omega, ?_, ?_, ?_⟩
        · have he : e - i = (e - (i + 1)) + 1 := by omega
          rw [he, List.take_succ_cons, rawDepth_cons, if_pos hc]
          omega
        · intro k hk
          cases k with
          | zero => simpa using by omega
          | succ k' =>
              rw [List.take_succ_cons, rawDepth_cons, if_pos hc]
              have := h4 k' (by omega)
              omega
        · have he : e - i - 1 = (e - (i + 1) - 1) + 1 ∨ e - (i + 1) = 0 := by omega
          rcases he with he | he
          · rw [he, List.drop_succ_cons]
            have : e - (i + 1) - 1 = e - i - 1 - 1 := by omega
            exact this ▸ h5
          · omega
      · by_cases hcc : c = '}'
        · rw [braceScan, if_neg hc, if_pos hcc] at h
          by_cases hz : d - 1 = 0
          · rw [if_pos hz] at h
            cases h
            have he : i + 1 - i = 1 := by omega
            refine ⟨by omega, by simp only [List.length_cons]; omega, ?_, ?_, ?_⟩
            · rw [he, List.take_succ_cons, List.take_zero, rawDepth_cons, if_neg hc,
                if_pos hcc]
              simpa using by omega
            · intro k hk
              have hk0 : k = 0 := by omega
              subst hk0
              simpa using by omega
            · exact ⟨rest, by simp [he, hcc]⟩
          · rw [if_neg hz] at h
            obtain ⟨h1, h2, h3, h4, h5⟩ := ih h (by omega)
            refine ⟨by omega, by simp; omega, ?_, ?_, ?_⟩
            · have he : e - i = (e - (i + 1)) + 1 := by omega
              rw [he, List.take_succ_cons, rawDepth_cons, if_neg hc, if_pos hcc]
              omega
            · intro k hk
              cases k with
              | zero => simpa using by omega
              | succ k' =>
                  rw [List.take_succ_cons, rawDepth_cons, if_neg hc, if_pos hcc]
                  have := h4 k' (by omega)
                  omega
            · have he : e - i - 1 = (e - (i + 1) - 1) + 1 ∨ e - (i + 1) = 0 := by omega
              rcases he with he | he
              · rw [he, List.drop_succ_cons]
                have : e - (i + 1) - 1 = e - i - 1 - 1 := by omega
                exact this ▸ h5
              · omega
        · rw [braceScan, if_neg hc, if_neg hcc] at h
          obtain ⟨h1, h2, h3, h4, h5⟩ := ih h hd
          refine ⟨by omega, by simp; omega, ?_, ?_, ?_⟩
          · have he : e - i = (e - (i + 1)) + 1 := by omega
            rw [he, List.take_succ_cons, rawDepth_cons, if_neg hc, if_neg hcc]
            omega
          · intro k hk
            cases k with
            | zero => simpa using by omega
            | succ k' =>
                rw [List.take_succ_cons, rawDepth_cons, if_neg hc, if_neg hcc]
                have := h4 k' (by omega)
                omega
          · have he : e - i - 1 = (e - (i + 1) - 1) + 1 ∨ e - (i + 1) = 0 := by omega
            rcases he with he | he
            · rw [he, List.drop_succ_cons]
              have : e - (i + 1) - 1 = e - i - 1 - 1 := by omega
              exact this ▸ h5
            · omega

/-- When the raw depth never returns to zero before the end of the
buffer, the scan falls off the end and reports no close. -/
theorem braceScan_none {cs : Text} {d : Int} (i : Nat) (hd : 1 ≤ d)
    (h : ∀ k, 1 ≤ k → k ≤ cs.length → d + rawDepth (cs.take k) ≠ 0) :
    braceScan cs d i = none := by
  induction cs generalizing d i with
  | nil => rfl
  | cons c rest ih =>
      by_cases hc : c = '{'
      · rw [braceScan, if_pos hc]
        refine ih _ (by omega) ?_
        intro k hk1 hk2
        have := h (k + 1) (by omega) (by simpa using by omega)
        rw [List.take_succ_cons, rawDepth_cons, if_pos hc] at this
        omega
      · by_cases hcc : c = '}'
        · have hz : ¬ d - 1 = 0 := by
            intro hz
            have := h 1 (by omega) (by simp)
            rw [List.take_succ_cons, List.take_zero, rawDepth_cons, if_neg hc,
              if_pos hcc] at this
            simp at this
            omega
          rw [braceScan, if_neg hc, if_pos hcc, if_neg hz]
          refine ih _ (by omega) ?_
          intro k hk1 hk2
          have := h (k + 1) (by omega) (by simpa using by omega)
          rw [List.take_succ_cons, rawDepth_cons, if_neg hc, if_pos hcc] at this
          omega
        · rw [braceScan, if_neg hc, if_neg hcc]
          refine ih _ hd ?_
          intro k hk1 hk2
          have := h (k + 1) (by omega) (by simpa using by omega)
          rw [List.take_succ_cons, rawDepth_cons, if_neg hc, if_neg hcc] at this
          omega

theorem pyFind_none_iff (t m : Text) :
    pyFind t m = none ↔ ∀ a b, t ≠ a ++ m ++ b := by
  rw [pyFind, pyFindAux_none_iff]
  constructor
  · intro h a b hab
    have := (occursIn_iff m t).mpr ⟨a, b, hab⟩
    rw [h] at this
    cases this
  · intro h
    cases hq : occursIn m t
    · rfl
    · obtain ⟨a, b, hab⟩ := (occursIn_iff m t).mp hq
      exact absurd hab (h a b)

theorem find_fn_block_ok {t m : Text} {s e : Nat}
    (h : find_fn_block t m = .ok (s, e)) :
    ∃ p, pyFind t m = some p ∧ pyFindFrom t ['{'] p = some s ∧
      braceScan (t.drop s) 0 s = some e := by
  unfold find_fn_block at h
  cases hp : pyFind t m with
  | none =>
      simp only [hp] at h
      exact Except.noConfusion h
  | some p =>
      simp only [hp] at h
      cases hbs : pyFindFrom t ['{'] p with
      | none =>
          simp only [hbs] at h
          exact Except.noConfusion h
      | some bs =>
          simp only [hbs] at h
          cases hsc : braceScan (t.drop bs) 0 bs with
          | none =>
              simp only [hsc] at h
              exact Except.noConfusion h
          | some e2 =>
              simp only [hsc, Except.ok.injEq, Prod.mk.injEq] at h
              obtain ⟨rfl, rfl⟩ := h
              exact ⟨p, rfl, hbs, hsc⟩

/-- Bundle of guarantees for a successful `find_fn_block`: span inside the
buffer, the span starts at a `{` and ends just after a `}`, its raw depth
returns to zero exactly at the end and is strictly positive at every
proper nonempty prefix. -/
theorem find_fn_block_ok_full {t m : Text} {s e : Nat}
    (h : find_fn_block t m = .ok (s, e)) :
    s < e ∧ e ≤ t.length ∧ (∃ r, t.drop s = '{' :: r) ∧
      rawDepth ((t.drop s).take (e - s)) = 0 ∧
      (∀ k, 1 ≤ k → k < e - s → 0 < rawDepth ((t.drop s).take k)) ∧
      (∃ r, t.drop (e - 1) = '}' :: r) := by
  obtain ⟨p, hp, hbs, hscan⟩ := find_fn_block_ok h
  rw [pyFind] at hp
  rw [pyFindFrom] at hbs
  obtain ⟨hp1, hp2, _⟩ := pyFindAux_some m t 0 p hp
  obtain ⟨hb1, hb2, hb3⟩ := pyFindAux_some ['{'] (t.drop p) p s hbs
  rw [List.length_drop] at hb2
  have hdrop : (t.drop p).drop (s - p) = t.drop s := by
    rw [List.drop_drop]
    congr 1
    omega
  rw [hdrop] at hb3
  obtain ⟨r, hr⟩ := (leadsWith_iff _ _).mp hb3
  simp only [List.singleton_append] at hr
  have hlen : t.length - s = r.length + 1 := by
    have := congrArg List.length hr
    rw [List.length_drop] at this
    simpa using this
  have hs_le : s ≤ t.length := by omega
  rw [hr] at hscan
  have hscan' : braceScan r 1 (s + 1) = some e := by
    simpa [braceScan] using hscan
  obtain ⟨h1, h2, h3, h4, h5⟩ := braceScan_some hscan' (by omega)
  have hes : e - (s + 1) = e - s - 1 := by omega
  rw [hes] at h3 h5
  refine ⟨by omega, by omega, ⟨r, hr⟩, ?_, ?_, ?_⟩
  · have ht : (t.drop s).take (e - s) = '{' :: r.take (e - s - 1) := by
      rw [hr, show e - s = e - s - 1 + 1 from by omega, List.take_succ_cons,
        show e - s - 1 + 1 - 1 = e - s - 1 from by omega]
    rw [ht, rawDepth_cons, if_pos rfl]
    omega
  · intro k hk1 hk2
    have ht : (t.drop s).take k = '{' :: r.take (k - 1) := by
      rw [hr, show k = k - 1 + 1 from by omega, List.take_succ_cons,
        show k - 1 + 1 - 1 = k - 1 from by omega]
    rw [ht, rawDepth_cons, if_pos rfl]
    have := h4 (k - 1) (by omega)
    omega
  · have hd2 : t.drop (e - 1) = (t.drop s).drop (e - 1 - s) := by
      rw [List.drop_drop]
      congr 1
      omega
    rw [hd2, hr, show e - 1 - s = e - s - 1 - 1 + 1 from by omega,
      List.drop_succ_cons]
    exact h5

/- ## Claim C4 -/

/-- C4: the anchor locator fails with `AnchorNotFound` exactly when the
marker does not occur in the buffer; when the marker occurs but the raw
depth never returns to zero before end-of-buffer it fails with
`UnbalancedAnchor`; otherwise it returns a span `[s, e)` with `s < e`
ending immediately after the brace that returns the depth to 0, the span
containing equally many opening and closing braces with the depth never
negative within it.  (The source's third `SystemExit`, raised when no
opening `{` exists at or after the marker, is kept as the separate
`openDelimNotFound`; such a buffer also has no matching close.) -/
theorem c4_anchor_locator_contract (t m : Text) :
    (find_fn_block t m = .error .anchorNotFound ↔ ∀ a b, t ≠ a ++ m ++ b) ∧
    (∀ s e, find_fn_block t m = .ok (s, e) →
        s < e ∧ e ≤ t.length ∧
        ((t.drop s).take (e - s)).count '{' = ((t.drop s).take (e - s)).count '}' ∧
        (∀ k, k ≤ e - s → 0 ≤ rawDepth ((t.drop s).take k)) ∧
        (∃ r, t.drop (e - 1) = '}' :: r)) ∧
    (∀ p bs, pyFind t m = some p → pyFindFrom t ['{'] p = some bs →
        (∀ k, 1 ≤ k → k ≤ t.length - bs → rawDepth ((t.drop bs).take k) ≠ 0) →
        find_fn_block t m = .error .unbalancedAnchor) := by
  refine ⟨?_, ?_, ?_⟩
  · constructor
    · intro h
      rw [← pyFind_none_iff]
      unfold find_fn_block at h
      split at h
      · assumption
      · split at h
        · cases h
        · split at h
          · cases h
          · cases h
    · intro h
      have hn := (pyFind_none_iff t m).mpr h
      unfold find_fn_block
      simp only [hn]
  · intro s e h
    obtain ⟨h1, h2, ⟨r, hr⟩, h4, h5, h6⟩ := find_fn_block_ok_full h
    refine ⟨h1, h2, ?_, ?_, h6⟩
    · rw [rawDepth] at h4
      omega
    · intro k hk
      rcases Nat.eq_zero_or_pos k with rfl | hk1
      · simp
      · rcases Nat.lt_or_ge k (e - s) with hk2 | hk2
        · exact le_of_lt (h5 k hk1 hk2)
        · have hke : k = e - s := by omega
          rw [hke, h4]
  · intro p bs hp hbs hnone
    have hdr : ∃ r, t.drop bs = '{' :: r := by
      rw [pyFindFrom] at hbs
      obtain ⟨hb1, hb2, hb3⟩ := pyFindAux_some ['{'] (t.drop p) p bs hbs
      have hdrop : (t.drop p).drop (bs - p) = t.drop bs := by
        rw [List.drop_drop]
        congr 1
        omega
      rw [hdrop] at hb3
      obtain ⟨r, hr⟩ := (leadsWith_iff _ _).mp hb3
      exact ⟨r, by simpa using hr⟩
    obtain ⟨r, hr⟩ := hdr
    have hlen : t.length - bs = r.length + 1 := by
      have := congrArg List.length hr
      rw [List.length_drop] at this
      simpa using this
    have hsc : braceScan (t.drop bs) 0 bs = none := by
      rw [hr]
      have : braceScan r 1 (bs + 1) = none := by
        refine braceScan_none _ (by omega) ?_
        intro k hk1 hk2
        have := hnone (k + 1) (by omega) (by omega)
        rw [hr, List.take_succ_cons, rawDepth_cons, if_pos rfl] at this
        omega
      simpa [braceScan] using this
    unfold find_fn_block
    simp only [hp, hbs, hsc]

/-- Concrete buffer for the locator witnesses: `fn f() {x}`. -/
def tC4 : Text := ("fn f() \x7bx\x7d").toList

/-- Marker used in the locator witnesses. -/
def mC4 : Text := ("fn f(").toList

/-- Witness: the success contract of C4 evaluated on `fn f() {x}`. -/
theorem c4_anchor_locator_contract_witness :
    7 < 10 ∧ 10 ≤ tC4.length ∧
      ((tC4.drop 7).take 3).count '{' = ((tC4.drop 7).take 3).count '}' ∧
      (∀ k, k ≤ 3 → 0 ≤ rawDepth ((tC4.drop 7).take k)) ∧
      (∃ r, tC4.drop 9 = '}' :: r) := by
  have h := (c4_anchor_locator_contract tC4 mC4).2.1 7 10 (by rfl)
  simpa using h

/- ## Claim C5 -/

/-- Modelled from the spec (sections 4.1/4.2): depth scan over the token
stream of the lexical scanner — brace characters inside string literals
or comments are not tokens and do not touch the depth counter.  Returns
the offset immediately after the token that brings the depth back to 0. -/
def tokenDepthScan : ScanState → Text → Int → Nat → Option Nat
  | _, [], _, _ => none
  | .slComment, c :: rest, d, i =>
      if c = nl then tokenDepthScan .code rest d (i + 1)
      else tokenDepthScan .slComment rest d (i + 1)
  | .mlComment, c1 :: c2 :: rest, d, i =>
      if c1 = '*' ∧ c2 = '/' then tokenDepthScan .code rest d (i + 2)
      else tokenDepthScan .mlComment (c2 :: rest) d (i + 1)
  | .mlComment, _ :: rest, d, i => tokenDepthScan .mlComment rest d (i + 1)
  | .strLit dl, c1 :: c2 :: rest, d, i =>
      if c1 = bslash then tokenDepthScan (.strLit dl) rest d (i + 2)
      else if c1 = dl then tokenDepthScan .code (c2 :: rest) d (i + 1)
      else tokenDepthScan (.strLit dl) (c2 :: rest) d (i + 1)
  | .strLit dl, c :: rest, d, i =>
      if c = dl then tokenDepthScan .code rest d (i + 1)
      else tokenDepthScan (.strLit dl) rest d (i + 1)
  | .code, c1 :: c2 :: rest, d, i =>
      if c1 = '/' ∧ c2 = '/' then tokenDepthScan .slComment rest d (i + 2)
      else if c1 = '/' ∧ c2 = '*' then tokenDepthScan .mlComment rest d (i + 2)
      else if c1 = dquote ∨ c1 = squote then tokenDepthScan (.strLit c1) (c2 :: rest) d (i + 1)
      else if c1 = '{' then tokenDepthScan .code (c2 :: rest) (d + 1) (i + 1)
      else if c1 = '}' then
        if d - 1 = 0 then some (i + 1) else tokenDepthScan .code (c2 :: rest) (d - 1) (i + 1)
      else tokenDepthScan .code (c2 :: rest) d (i + 1)
  | .code, c :: rest, d, i =>
      if c = dquote ∨ c = squote then tokenDepthScan (.strLit c) rest d (i + 1)
      else if c = '{' then tokenDepthScan .code rest (d + 1) (i + 1)
      else if c = '}' then
        if d - 1 = 0 then some (i + 1) else tokenDepthScan .code rest (d - 1) (i + 1)
      else tokenDepthScan .code rest d (i + 1)

/-- Modelled from the spec (section 4.2): locate the marker, find the
first `{` at or after it, then scan tokens (via section 4.1) with a depth
counter; the body ends the instant the depth returns to 0. -/
def specLocate (t m : Text) : Option (Nat × Nat) :=
  match pyFind t m with
  | none => none
  | some start =>
      match pyFindFrom t ['{'] start with
      | none => none
      | some bs => (tokenDepthScan .code (t.drop bs) 0 bs).map (fun e => (bs, e))

/-- The buffer of the C5 counterexample: `fn f() { let s = "}"; }`.
The `}` at offset 18 sits inside a string literal. -/
def tC5 : Text := ("fn f() \x7b let s = \"\x7d\"; \x7d").toList

/-- Marker of the C5 counterexample. -/
def mC5 : Text := ("fn f(").toList

/-- C5 counterexample: on `fn f() { let s = "}"; }` the source locator
ends the body at offset 19 — immediately after the `}` at offset 18 that
lies inside a string literal (the spec classification of that character
is `StringLiteral`), whereas the spec's token-stream depth scan ends the
body at offset 23.  A brace inside a string literal does move the
located body-end offset, refuting the claim. -/
theorem c5_counterexample_string_brace_shifts_end :
    find_fn_block tC5 mC5 = .ok (7, 19) ∧
      specLocate tC5 mC5 = some (7, 23) ∧
      (specScan ScanState.code (tC5.drop 7)).1.get? 11 =
        some ('}', ScanState.strLit dquote) ∧
      (19 : Nat) ≠ 23 := by
  refine ⟨by rfl, by rfl, by rfl, by decide⟩

/-- C5 amended: while locating an anchor's body, the depth counter is
maintained over raw characters rather than the scanner's token stream:
every `{` or `}` character between the opening brace and the located end
increments or decrements the counter — including braces inside string
literals or comments — and the located body-end offset is exactly the
first position at which the raw depth returns to zero. -/
theorem c5_amended_depth_over_raw_characters (t m : Text) (s e : Nat)
    (h : find_fn_block t m = .ok (s, e)) :
    rawDepth ((t.drop s).take (e - s)) = 0 ∧
      ∀ j, s < j → j < e → rawDepth ((t.drop s).take (j - s)) ≠ 0 := by
  obtain ⟨_, _, _, h4, h5, _⟩ := find_fn_block_ok_full h
  refine ⟨h4, ?_⟩
  intro j hj1 hj2
  have := h5 (j - s) (by omega) (by omega)
  omega

/-- Witness: the amended C5 applied to the counterexample buffer. -/
theorem c5_amended_depth_over_raw_characters_witness :
    rawDepth ((tC5.drop 7).take 12) = 0 ∧
      ∀ j, 7 < j → j < 19 → rawDepth ((tC5.drop 7).take (j - 7)) ≠ 0 := by
  have h := c5_amended_depth_over_raw_characters tC5 mC5 7 19 (by rfl)
  simpa using h

/- ## Diagnostic fingerprints and diff (`cargo_progress.py`) -/

/-- A span of a compiler message (the fields `key_for_message` and
`summarize` read). -/
structure CargoSpan where
  is_primary : Bool
  file_name : Text
  line_start : Nat
  column_start : Nat
deriving DecidableEq, Repr

/-- A compiler message as consumed by `cargo_progress.py`: `level`,
optional `code` object with optional inner `code` string, optional
`rendered` text, and spans. -/
structure CargoMessage where
  level : Text
  code : Option (Option Text)
  rendered : Option Text
  spans : List CargoSpan
deriving DecidableEq, Repr

/-- Single pass of Python `str.splitlines`: `cur` holds the current line
reversed; a newline closes the line, and a newline at end of text closes
the last line without starting an empty one. -/
def splitAux : Text → Text → List Text
  | cur, [] => [cur.reverse]
  | cur, c :: rest =>
      if c = nl then
        match rest with
        | [] => [cur.reverse]
        | _ => cur.reverse :: splitAux [] rest
      else splitAux (c :: cur) rest

/-- Python `str.splitlines` (modelled on the newline character, the only
line separator appearing in the consumed streams). -/
def pySplitlines (t : Text) : List Text :=
  if t = [] then [] else splitAux [] t

/-- Python whitespace for `str.strip()`. -/
def isPyWs (c : Char) : Bool :=
  c == ' ' || c == Char.ofNat 9 || c == nl || c == Char.ofNat 13 ||
    c == Char.ofNat 11 || c == Char.ofNat 12

/-- Python `str.strip()`. -/
def pyStrip (t : Text) : Text :=
  ((t.dropWhile isPyWs).reverse.dropWhile isPyWs).reverse

/-- The `file_line` loop of `key_for_message`: the location of the first
primary span, empty if none. -/
def firstPrimaryLoc : List CargoSpan → Text
  | [] => []
  | s :: rest =>
      if s.is_primary then
        s.file_name ++ [':'] ++ (toString s.line_start).toList ++ [':'] ++
          (toString s.column_start).toList
      else firstPrimaryLoc rest

/-- `key_for_message(m)`: the stable fingerprint string
`level|code|file_line|render`, where `code` falls back to `nocode` when
the code object or its inner string is missing or empty (Python
truthiness), `render` is the first two rendered lines joined by `" | "`
and stripped, and `file_line` is the first primary span's location.
The source finally hashes this string with SHA-1; the digest is a
deterministic function of the string and every claim uses fingerprints
only up to equality, so the fingerprint is modelled by the pre-hash
string itself. -/
def key_for_message (m : CargoMessage) : Text :=
  let code : Text :=
    match m.code with
    | none => ("nocode").toList
    | some none => ("nocode").toList
    | some (some c) => if c = [] then ("nocode").toList else c
  let render : Text :=
    pyStrip (List.intercalate ((" | ").toList)
      ((pySplitlines (m.rendered.getD [])).take 2))
  m.level ++ ['|'] ++ code ++ ['|'] ++ firstPrimaryLoc m.spans ++ ['|'] ++ render

/-- The filter `m.get("level") == "error"` of the key list comprehension
in `main`. -/
def isErrorLevel (m : CargoMessage) : Bool :=
  m.level == ("error").toList

/-- `keys = [key_for_message(m) for m in msgs if m.get("level") == "error"]`
— the `error_keys` field of the saved baseline. -/
def error_keys (msgs : List CargoMessage) : List Text :=
  (msgs.filter isErrorLevel).map key_for_message

/-- The diff block of `main` (lines 139-152): new / resolved / unchanged
and the progress percentage. -/
structure DiffResult where
  newErrs : Finset Text
  resolved : Finset Text
  unchanged : Nat
  progress : ℚ

/-- The `diff vs previous run` computation of `main`: set algebra over
the baseline's `error_keys` and the current run's keys, with
`denom = len(prev) if prev else 1`. -/
def cargoDiff (baselineKeys curKeys : List Text) : DiffResult :=
  let prev := baselineKeys.toFinset
  let cur := curKeys.toFinset
  { newErrs := cur \ prev
    resolved := prev \ cur
    unchanged := (prev ∩ cur).card
    progress :=
      ((prev \ cur).card : ℚ) / (if prev = ∅ then 1 else (prev.card : ℚ)) * 100 }

/- ## Claim C1 -/

/-- Baseline fingerprints of the spec scenario. -/
def exB : List Text := [("x").toList, ("y").toList, ("z").toList]

/-- Current fingerprints of the spec scenario. -/
def exC : List Text := [("y").toList, ("z").toList, ("w").toList]

/-- C1: the diff computes `new = C − B`, `resolved = B − C`,
`unchanged = |C ∩ B|` and `progress = |resolved| / max(|B|, 1) × 100`;
on baseline `{x,y,z}` and current `{y,z,w}` it reports `new = {w}`,
`resolved = {x}`, `unchanged = 2` and `progress = 100/3` — whose one
decimal rendering, as printed by the source's `%.1f` format, is `33.3`. -/
theorem c1_diff_set_algebra :
    (∀ B C : List Text,
      (cargoDiff B C).newErrs = C.toFinset \ B.toFinset ∧
      (cargoDiff B C).resolved = B.toFinset \ C.toFinset ∧
      (cargoDiff B C).unchanged = (C.toFinset ∩ B.toFinset).card ∧
      (cargoDiff B C).progress =
        ((B.toFinset \ C.toFinset).card : ℚ) / max (B.toFinset.card : ℚ) 1 * 100) ∧
    (cargoDiff exB exC).newErrs = {("w").toList} ∧
    (cargoDiff exB exC).resolved = {("x").toList} ∧
    (cargoDiff exB exC).unchanged = 2 ∧
    (cargoDiff exB exC).progress = 100 / 3 ∧
    ⌊(cargoDiff exB exC).progress * 10⌋ = 333 := by
  have hprog : (cargoDiff exB exC).progress = 100 / 3 := by
    have h2 : ¬ exB.toFinset = ∅ := by decide
    have h1 : exB.toFinset \ exC.toFinset = {("x").toList} := by decide
    have h3 : exB.toFinset.card = 3 := by decide
    simp only [cargoDiff, if_neg h2, h1, h3]
    norm_num
  refine ⟨?_, by decide, by decide, by decide, hprog, ?_⟩
  · intro B C
    refine ⟨rfl, rfl, ?_, ?_⟩
    · simp [cargoDiff, Finset.inter_comm]
    · by_cases h : B.toFinset = ∅
      · simp [cargoDiff, h]
      · have h1 : 1 ≤ B.toFinset.card := by
          rcases Finset.nonempty_iff_ne_empty.mpr h with ⟨x, hx⟩
          exact Finset.card_pos.mpr ⟨x, hx⟩
        have hmax : max (B.toFinset.card : ℚ) 1 = (B.toFinset.card : ℚ) := by
          rw [max_eq_left]
          exact_mod_cast h1
        rw [hmax]
        simp [cargoDiff, h]
  · rw [hprog, show (100 / 3 * 10 : ℚ) = 1000 / 3 by norm_num, Int.floor_eq_iff]
    norm_num

/- ## Claim C10 -/

/-- C10: only messages whose `level` equals `"error"` contribute to the
saved `error_keys` and to every diff output: two runs agreeing on their
error-level messages produce identical fingerprint lists and identical
diffs against any baseline, regardless of warning- or other-level
messages. -/
theorem c10_only_error_level_contributes (msgs1 msgs2 : List CargoMessage)
    (h : msgs1.filter isErrorLevel = msgs2.filter isErrorLevel) :
    error_keys msgs1 = error_keys msgs2 ∧
      ∀ B : List Text, cargoDiff B (error_keys msgs1) = cargoDiff B (error_keys msgs2) := by
  have hk : error_keys msgs1 = error_keys msgs2 := by
    rw [error_keys, error_keys, h]
  exact ⟨hk, fun B => by rw [hk]⟩

/-- An error-level message used by the C10 witness. -/
def exErrMsg : CargoMessage where
  level := ("error").toList
  code := some (some (("E0308").toList))
  rendered := some (("mismatched types\nexpected u64").toList)
  spans := [{ is_primary := true, file_name := ("src/main.rs").toList,
              line_start := 3, column_start := 7 }]

/-- A warning-level message used by the C10 witness. -/
def exWarnMsg : CargoMessage where
  level := ("warning").toList
  code := none
  rendered := some (("unused variable").toList)
  spans := []

/-- Witness: a run with an extra warning yields the same keys and diffs
as the run without it. -/
theorem c10_only_error_level_contributes_witness :
    error_keys [exWarnMsg, exErrMsg] = error_keys [exErrMsg] ∧
      ∀ B : List Text,
        cargoDiff B (error_keys [exWarnMsg, exErrMsg]) =
          cargoDiff B (error_keys [exErrMsg]) :=
  c10_only_error_level_contributes [exWarnMsg, exErrMsg] [exErrMsg] (by decide)

/- ## Python slices and `str.replace` -/

/-- Python `l[:j]` for a possibly negative `j`. -/
def pyTake {α : Type} (l : List α) (j : Int) : List α :=
  if 0 ≤ j then l.take j.toNat else l.take ((l.length + j).toNat)

/-- Python `l[j:]` for a possibly negative `j`. -/
def pyDrop {α : Type} (l : List α) (j : Int) : List α :=
  if 0 ≤ j then l.drop j.toNat else l.drop ((l.length + j).toNat)

/-- Fuel-driven worker of Python `str.replace`: leftmost occurrences of
`p` are replaced by `q`, scanning resumes after the replacement.  The
fuel is the length of the text, enough for the whole scan since every
step consumes at least one character. -/
def replaceAllGo (p q : Text) : Nat → Text → Text
  | 0, t => t
  | _ + 1, [] => []
  | fuel + 1, c :: rest =>
      if p ≠ [] ∧ leadsWith p (c :: rest) = true then
        q ++ replaceAllGo p q fuel ((c :: rest).drop p.length)
      else c :: replaceAllGo p q fuel rest

/-- Python `t.replace(p, q)` for a nonempty pattern `p` (every pattern in
the repository is nonempty; the empty-pattern corner of Python is not
used). -/
def replaceAll (p q t : Text) : Text :=
  replaceAllGo p q t.length t

/- ## File-system events -/

/-- A file write event: `shutil.copy2` and `write_text` both write
`content` to `path`. -/
structure FsEvent where
  path : Text
  content : Text
deriving DecidableEq, Repr

/-- `src/processor/sniper_bot.rs`. -/
def sniperPath : Text := ("src/processor/sniper_bot.rs").toList

/-- `path.with_suffix(path.suffix + ".bak")`. -/
def withBak (p : Text) : Text := p ++ (".bak").toList

/-- `src/processor/sniper_bot.rs.bak_retry_fix`. -/
def sniperBakRetry : Text :=
  ("src/processor/sniper_bot.rs.bak_retry_fix").toList

/-- `'\n'.join(lines) + '\n'` as written by `replace_range`. -/
def joinNl (lines : List Text) : Text :=
  List.intercalate [nl] lines ++ [nl]

/-- The ordering property of claim C7: every write to the target is
preceded by a write of the pre-edit content to the backup path. -/
def backupBefore (tr : List FsEvent) (bakPath tgt preContent : Text) : Prop :=
  ∀ j, ∀ hj : j < tr.length, (tr.get ⟨j, hj⟩).path = tgt →
    ∃ i, ∃ hi : i < tr.length, i < j ∧ tr.get ⟨i, hi⟩ = ⟨bakPath, preContent⟩

/- ## `replace_range` (`troubleshoot.py`, lines 63-70) -/

/-- `replace_range(path, start, end, payload_path)`: reads and splits the
file and the payload, copies the file to `path + ".bak"`, then writes
`src[:start-1] + payload + src[end:]` joined by newlines.  There is no
bounds validation anywhere.  Returns the new line list and the write
events in program order. -/
def replace_range (path t payloadText : Text) (start endL : Int) :
    List Text × List FsEvent :=
  let src := pySplitlines t
  let payload := pySplitlines payloadText
  let new := pyTake src (start - 1) ++ payload ++ pyDrop src endL
  (new, [⟨withBak path, t⟩, ⟨path, joinNl new⟩])

/- ## `comment_out_line` (`auto_fix_unmatched_brace.py`, lines 33-55) -/

/-- The replacement line written by `comment_out_line` (with the original
line's indentation prefixed). -/
def autoFixMsg : Text :=
  ("// AUTO-FIX: commented out stray closing brace").toList ++ [nl]

/-- The `SystemExit` message of the bounds check (parameters elided). -/
def outOfRangeMsg : Text := ("Line out of range").toList

/-- `comment_out_line(path, line_no)`: validates `1 <= line_no <=
len(text)` and aborts before any write when it fails; otherwise writes a
backup of the whole pre-edit content and then the edited file, replacing
the 1-based line with an indentation-preserving comment. -/
def comment_out_line (path : Text) (lines : List Text) (lineNo : Int) :
    Except Text (List Text × List FsEvent) :=
  if 1 ≤ lineNo ∧ lineNo ≤ (lines.length : Int) then
    let idx := (lineNo - 1).toNat
    let original := lines.getD idx []
    let indent := original.takeWhile (fun c => c == ' ' || c == Char.ofNat 9)
    let newLines := lines.set idx (indent ++ autoFixMsg)
    .ok (newLines, [⟨withBak path, lines.flatten⟩, ⟨path, newLines.flatten⟩])
  else .error outOfRangeMsg

/- ## `find_unmatched_brace_line` (`auto_fix_unmatched_brace.py`, lines 18-32) -/

/-- The error marker checked before the location search. -/
def errDelimMarker : Text :=
  ("unexpected closing delimiter: `\x7d`").toList

/-- The literal part of the location pattern. -/
def rsPathMarker : Text := ("src/processor/sniper_bot.rs:").toList

/-- Decimal digits to a number (Python `int`). -/
def natOfDigits (ds : Text) : Nat :=
  ds.foldl (fun acc c => acc * 10 + (c.toNat - 48)) 0

/-- One attempt of the regex `src/processor/sniper_bot\.rs:(\d+):\d+` at
the head of `t`: the literal path, a nonempty digit group, a colon, and
a nonempty digit run. -/
def matchLocAt (t : Text) : Option Nat :=
  if leadsWith rsPathMarker t = true then
    let r1 := t.drop rsPathMarker.length
    let d1 := r1.takeWhile Char.isDigit
    if d1 = [] then none
    else
      match r1.drop d1.length with
      | ':' :: r3 => if r3.takeWhile Char.isDigit = [] then none else some (natOfDigits d1)
      | _ => none
  else none

/-- `re.search` of the location pattern: try every position left to
right. -/
def reSearchLoc : Text → Option Nat
  | [] => none
  | c :: rest =>
      match matchLocAt (c :: rest) with
      | some n => some n
      | none => reSearchLoc rest

/-- `find_unmatched_brace_line(stderr)`. -/
def find_unmatched_brace_line (stderr : Text) : Option Nat :=
  if occursIn errDelimMarker stderr = true then reSearchLoc stderr else none

/- ## The repair loop (`auto_fix_unmatched_brace.py`, `main`, lines 57-73) -/

/-- The `for i in range(10)` loop of `main`: at pass `i` the external
checker's stderr is `stderrs i`; an unparseable or absent diagnostic
ends the loop early (no warning), a found line is commented out, and
exhausting the fuel corresponds to the `for`-`else` warning `Hit loop
limit`.  Returns the 1-based lines patched in order, the final file and
whether the warning was printed. -/
def autoFixGo (path : Text) (stderrs : Nat → Text) :
    Nat → Nat → List Text → List Nat → Except Text (List Nat × List Text × Bool)
  | 0, _, lines, acc => .ok (acc.reverse, lines, true)
  | fuel + 1, i, lines, acc =>
      match find_unmatched_brace_line (stderrs i) with
      | none => .ok (acc.reverse, lines, false)
      | some n =>
          match comment_out_line path lines (n : Int) with
          | .error e => .error e
          | .ok (lines2, _) => autoFixGo path stderrs fuel (i + 1) lines2 (n :: acc)

/-- `main` of `auto_fix_unmatched_brace.py` with the checker's stderr
stream abstracted as input (the checker is an external subprocess). -/
def autoFixMain (path : Text) (stderrs : Nat → Text) (lines : List Text) :
    Except Text (List Nat × List Text × Bool) :=
  autoFixGo path stderrs 10 0 lines []

/- ## `patch_retry_logic_for_buys.py` and `fix_retry_wrapper_recursion.py` -/

/-- The wrapper signature marker. -/
def fnSigRetry : Text := ("pub async fn execute_buy_with_retry(").toList

/-- The recursive call pattern fixed inside the wrapper body. -/
def recursiveCall : Text := ("match execute_buy_with_retry(").toList

/-- Its replacement. -/
def fixedCall : Text := ("match execute_buy(").toList

/-- `patch_wrapper(text)` of `fix_retry_wrapper_recursion.py`: locate the
wrapper, and only inside its body replace recursive
`match execute_buy_with_retry(` calls with `match execute_buy(`. -/
def patch_wrapper (t : Text) : Except AnchorError Text :=
  if occursIn fnSigRetry t = false then .ok t
  else
    match find_fn_block t fnSigRetry with
    | .error e => .error e
    | .ok (bs, be) =>
        let body := (t.drop bs).take (be - bs)
        if occursIn recursiveCall body = false then .ok t
        else
          let newBody := replaceAll recursiveCall fixedCall body
          if newBody = body then .ok t
          else .ok (t.take bs ++ newBody ++ t.drop (bs + body.length))

/-- `main` of `fix_retry_wrapper_recursion.py`: write events only when
the patch changed something, backup first. -/
def fixRetryMain (t : Text) : Except AnchorError (List FsEvent) :=
  match patch_wrapper t with
  | .error e => .error e
  | .ok patched =>
      if patched = t then .ok []
      else .ok [⟨sniperBakRetry, t⟩, ⟨sniperPath, patched⟩]

/- ## `fix_sniper_bot_stages.py`: `backup` (lines 8-14) and stage 4 -/

/-- `backup(path)` of the staged fixer: writes `path + ".bak"` with the
current content only if no backup file exists; an existing backup is
kept (`already exists; not overwriting`). -/
def backup (bakExists : Bool) (t : Text) : List FsEvent :=
  if bakExists then [] else [⟨withBak sniperPath, t⟩]

/-- The double-comma pattern fixed by stage 4. -/
def stage4Pattern : Text := ("Ok(_) => Ok(()),,").toList

/-- Its replacement. -/
def stage4Fix : Text := ("Ok(_) => Ok(()),").toList

/-- The text transformation of `stage4()`. -/
def stage4Text (t : Text) : Text :=
  if occursIn stage4Pattern t = true then replaceAll stage4Pattern stage4Fix t
  else t

/-- `stage4()`: call `backup`, transform, write the target
unconditionally. -/
def stage4Run (bakExists : Bool) (t : Text) : List FsEvent :=
  backup bakExists t ++ [⟨sniperPath, stage4Text t⟩]

/- ## Claim C6 -/

/-- Generic path used in the C6/C7 examples. -/
def exPath : Text := ("f.rs").toList

/-- A three-line file. -/
def exC6Text : Text := ("a\nb\nc\n").toList

/-- A one-line payload. -/
def exC6Payload : Text := ("X\n").toList

/-- C6 counterexample: `replace_range` with `start = 0` (and any end)
does not fail with `RangeOutOfBounds`: it writes a backup and rewrites
the file — `src[:-1]` silently drops the last prior line, so the result
is `a, b, X, c` and the file content changes. -/
theorem c6_counterexample_no_bounds_check :
    (replace_range exPath exC6Text exC6Payload 0 2).1 =
      [("a").toList, ("b").toList, ("X").toList, ("c").toList] ∧
    (replace_range exPath exC6Text exC6Payload 0 2).2 =
      [⟨withBak exPath, exC6Text⟩, ⟨exPath, ("a\nb\nX\nc\n").toList⟩] ∧
    ("a\nb\nX\nc\n").toList ≠ exC6Text := by
  exact ⟨by rfl, by rfl, by decide⟩

theorem pyTake_neg_one {α : Type} (l : List α) : pyTake l (-1) = l.dropLast := by
  rw [pyTake, if_neg (by norm_num), List.dropLast_eq_take]
  congr 1
  omega

/-- C6 amended: the range-replace operation of `troubleshoot.py`
performs no bounds validation at all — for every `start`/`end` it writes
the backup and then the new content computed by Python slice semantics
(`start = 0` behaves as `src[:-1]`, dropping the last prior line, and an
`end` beyond the line count contributes nothing) — whereas the
single-line comment-out operation of `auto_fix_unmatched_brace.py` does
validate `1 ≤ line ≤ lineCount` and aborts before creating a backup or
mutating anything. -/
theorem c6_amended_no_validation_in_replace_range :
    (∀ path t payload : Text, ∀ s e : Int,
      (replace_range path t payload s e).2 =
        [⟨withBak path, t⟩, ⟨path, joinNl (replace_range path t payload s e).1⟩]) ∧
    (∀ path t payload : Text, ∀ e : Int,
      (replace_range path t payload 0 e).1 =
        (pySplitlines t).dropLast ++ pySplitlines payload ++
          pyDrop (pySplitlines t) e) ∧
    (∀ path : Text, ∀ lines : List Text, ∀ n : Int,
      ¬ (1 ≤ n ∧ n ≤ (lines.length : Int)) →
        comment_out_line path lines n = .error outOfRangeMsg) := by
  refine ⟨fun path t payload s e => rfl, ?_, ?_⟩
  · intro path t payload e
    simp only [replace_range, show (0 : Int) - 1 = -1 from by norm_num, pyTake_neg_one]
  · intro path lines n h
    rw [comment_out_line, if_neg h]

/-- Witness: the out-of-range abort of `comment_out_line` at `start = 0`
on a one-line file. -/
theorem c6_amended_no_validation_in_replace_range_witness :
    comment_out_line exPath [("x\n").toList] 0 = .error outOfRangeMsg :=
  c6_amended_no_validation_in_replace_range.2.2 exPath [("x\n").toList] 0 (by decide)

/- ## Claim C7 -/

theorem withBak_ne (p : Text) : withBak p ≠ p := by
  intro h
  have := congrArg List.length h
  simp [withBak] at this

theorem backupBefore_nil (bak tgt pre : Text) :
    backupBefore [] bak tgt pre := by
  intro j hj _
  simp at hj

theorem backupBefore_pair (bak tgt pre c2 : Text) (hne : bak ≠ tgt) :
    backupBefore [⟨bak, pre⟩, ⟨tgt, c2⟩] bak tgt pre := by
  intro j hj hpath
  have hj2 : j = 0 ∨ j = 1 := by
    simp only [List.length_cons, List.length_nil] at hj
    omega
  rcases hj2 with rfl | rfl
  · exact absurd hpath hne
  · exact ⟨0, by simp, by omega, rfl⟩

/-- The stage-4 counterexample content: the pattern itself. -/
def exC7Text : Text := stage4Pattern

/-- C7 counterexample: running stage 4 while a backup file already
exists mutates the target without writing any backup: the trace contains
a single write, to the target, with changed content, and no write of the
pre-edit content to the backup path precedes it. -/
theorem c7_counterexample_stage_backup_skipped :
    stage4Text exC7Text ≠ exC7Text ∧
    stage4Run true exC7Text = [⟨sniperPath, stage4Text exC7Text⟩] ∧
    ¬ backupBefore (stage4Run true exC7Text) (withBak sniperPath) sniperPath exC7Text := by
  refine ⟨by decide, by rfl, ?_⟩
  intro h
  obtain ⟨i, hi, hlt, _⟩ := h 0 (by decide) (by rfl)
  omega

/-- C7 amended: `comment_out_line`, the retry-fix `main`, and a stage
run that finds no pre-existing backup all write a backup containing
exactly the pre-edit content before any write to the target; the staged
fixer's `backup` helper, however, skips the backup write whenever a
backup file already exists, so in that case the pre-edit content of the
operation is not backed up (see the counterexample). -/
theorem c7_amended_backup_written_first :
    (∀ path : Text, ∀ lines : List Text, ∀ n : Int,
      ∀ res : List Text × List FsEvent,
        comment_out_line path lines n = .ok res →
          backupBefore res.2 (withBak path) path lines.flatten) ∧
    (∀ t : Text, ∀ tr : List FsEvent,
        fixRetryMain t = .ok tr → backupBefore tr sniperBakRetry sniperPath t) ∧
    (∀ t : Text, backupBefore (stage4Run false t) (withBak sniperPath) sniperPath t) := by
  refine ⟨?_, ?_, ?_⟩
  · intro path lines n res h
    rw [comment_out_line] at h
    split at h
    · simp only [Except.ok.injEq] at h
      rw [← h]
      exact backupBefore_pair _ _ _ _ (withBak_ne path)
    · exact Except.noConfusion h
  · intro t tr h
    unfold fixRetryMain at h
    cases hp : patch_wrapper t with
    | error e =>
        simp only [hp] at h
        exact Except.noConfusion h
    | ok patched =>
        simp only [hp] at h
        by_cases hc : patched = t
        · rw [if_pos hc] at h
          simp only [Except.ok.injEq] at h
          rw [← h]
          exact backupBefore_nil _ _ _
        · rw [if_neg hc] at h
          simp only [Except.ok.injEq] at h
          rw [← h]
          exact backupBefore_pair _ _ _ _ (by decide)
  · intro t
    exact backupBefore_pair _ _ _ _ (withBak_ne sniperPath)

/-- Witness: `comment_out_line` on a one-line file writes the backup
before the target. -/
theorem c7_amended_backup_written_first_witness :
    ∃ res : List Text × List FsEvent,
      comment_out_line exPath [("  \x7d\n").toList] 1 = .ok res ∧
        backupBefore res.2 (withBak exPath) exPath
          ([("  \x7d\n").toList] : List Text).flatten :=
  ⟨_, rfl, c7_amended_backup_written_first.1 exPath [("  \x7d\n").toList] 1 _ rfl⟩

/- ## Claim C9 -/

theorem autoFixGo_caps (path : Text) (stderrs : Nat → Text) (n : Nat)
    (hall : ∀ k, find_unmatched_brace_line (stderrs k) = some n)
    (h1 : 1 ≤ n) :
    ∀ fuel i lines acc, n ≤ lines.length →
      ∃ lines2, autoFixGo path stderrs fuel i lines acc =
        .ok (acc.reverse ++ List.replicate fuel n, lines2, true) := by
  intro fuel
  induction fuel with
  | zero =>
      intro i lines acc _
      exact ⟨lines, by simp [autoFixGo]⟩
  | succ f ih =>
      intro i lines acc h2
      have hb : (1 : Int) ≤ (n : Int) ∧ (n : Int) ≤ (lines.length : Int) := by
        constructor <;> omega
      obtain ⟨lines2, hrec⟩ := ih (i + 1)
        (lines.set ((n : Int) - 1).toNat
          (((lines.getD ((n : Int) - 1).toNat []).takeWhile
            (fun c => c == ' ' || c == Char.ofNat 9)) ++ autoFixMsg))
        (n :: acc) (by rw [List.length_set]; exact h2)
      refine ⟨lines2, ?_⟩
      rw [autoFixGo, hall i]
      simp only [comment_out_line, if_pos hb]
      rw [hrec]
      simp [List.replicate_succ, List.append_assoc]

/-- C9: against a checker that always reports the same single actionable
diagnostic on a line within the file, the repair loop performs exactly
its hard cap of 10 check-then-patch iterations, records exactly 10
applied patches, and reports the loop-limit warning; it terminates by
construction, `autoFixMain` being a total function whose fuel is the
source's `range(10)`. -/
theorem c9_repair_loop_iteration_cap (path : Text) (stderrs : Nat → Text)
    (lines : List Text) (n : Nat)
    (hall : ∀ k, find_unmatched_brace_line (stderrs k) = some n)
    (h1 : 1 ≤ n) (h2 : n ≤ lines.length) :
    ∃ lines2, autoFixMain path stderrs lines =
        .ok (List.replicate 10 n, lines2, true) ∧
      (List.replicate 10 n).length = 10 := by
  obtain ⟨lines2, h⟩ := autoFixGo_caps path stderrs n hall h1 10 0 lines [] h2
  exact ⟨lines2, by simpa [autoFixMain] using h, by simp⟩

/-- A constant checker stderr always reporting line 1. -/
def exStderrC9 : Text :=
  ("error: unexpected closing delimiter: `\x7d`\n --> src/processor/sniper_bot.rs:1:1\n").toList

/-- A one-line file for the C9 witness. -/
def exLinesC9 : List Text := [("\x7d\n").toList]

/-- Witness: the loop against the constant checker records ten patches
of line 1 and warns. -/
theorem c9_repair_loop_iteration_cap_witness :
    ∃ lines2, autoFixMain sniperPath (fun _ => exStderrC9) exLinesC9 =
        .ok (List.replicate 10 1, lines2, true) ∧
      (List.replicate 10 1).length = 10 :=
  c9_repair_loop_iteration_cap sniperPath (fun _ => exStderrC9) exLinesC9 1
    (fun _ => by rfl) (by decide) (by decide)

/- ## `patch_retry_logic_for_buys.py`: `add_wrapper` / `patch_call_sites` -/

/-- The `WRAPPER_SNIPPET` inserted by `patch_retry_logic_for_buys.py`
(verbatim, including its leading and trailing blank lines). -/
def wrapperSnippet : Text :=
  ("
// Maximum number of attempts for executing a buy transaction.
// This is a simple global control; can be later made configurable per wallet.
const EXECUTE_BUY_MAX_RETRIES: u32 = 3;

/// Execute buy with simple retry logic.
/// Retries the existing `execute_buy` up to EXECUTE_BUY_MAX_RETRIES times
/// if it returns an error (e.g., exceeded slippage allowance or transient RPC issues).
pub async fn execute_buy_with_retry(
    trade_info: transaction_parser::TradeInfoFromToken,
    app_state: Arc<AppState>,
    swap_config: Arc<SwapConfig>,
    protocol: SwapProtocol,
) -> Result<(), String> \x7b
    let logger = Logger::new(\"[EXECUTE-BUY-RETRY] => \".green().to_string());
    let mut attempt: u32 = 0;

    loop \x7b
        attempt += 1;

        logger.log(
            format!(
                \"🔄 Buy attempt \x7b\x7d for token \x7b\x7d\",
                attempt,
                trade_info.mint
            )
            .cyan()
            .to_string(),
        );

        match execute_buy(
            trade_info.clone(),
            app_state.clone(),
            swap_config.clone(),
            protocol.clone(),
        ).await \x7b
            Ok(_) => \x7b
                if attempt > 1 \x7b
                    logger.log(
                        format!(
                            \"✅ Buy succeeded on attempt \x7b\x7d for token \x7b\x7d\",
                            attempt,
                            trade_info.mint
                        )
                        .green()
                        .to_string(),
                    );
                \x7d
                return Ok(());
            \x7d
            Err(e) => \x7b
                if attempt >= EXECUTE_BUY_MAX_RETRIES \x7b
                    logger.log(
                        format!(
                            \"❌ Buy failed after \x7b\x7d attempts for token \x7b\x7d: \x7b\x7d\",
                            attempt,
                            trade_info.mint,
                            e
                        )
                        .red()
                        .to_string(),
                    );
                    return Err(format!(
                        \"Buy failed after \x7b\x7d attempts: \x7b\x7d\",
                        attempt, e
                    ));
                \x7d else \x7b
                    logger.log(
                        format!(
                            \"⚠️ Buy attempt \x7b\x7d failed for token \x7b\x7d: \x7b\x7d. Retrying...\",
                            attempt,
                            trade_info.mint,
                            e
                        )
                        .yellow()
                        .to_string(),
                    );
                    // Small delay before retrying; tuned conservatively.
                    time::sleep(Duration::from_millis(200)).await;
                \x7d
            \x7d
        \x7d
    \x7d
\x7d

").toList

/-- The idempotence guard of `add_wrapper`. -/
def sigRetry : Text := ("pub async fn execute_buy_with_retry").toList

/-- The insertion marker of `add_wrapper`. -/
def markerRetry : Text :=
  ("/// Execute buy operation based on detected transaction").toList

/-- The idempotence guard of `patch_call_sites`. -/
def retryCallPat : Text := ("match execute_buy_with_retry(").toList

/-- The call-site pattern `"match execute_buy(\n"`. -/
def buyCallPat : Text := ("match execute_buy(").toList ++ [nl]

/-- Its replacement `"match execute_buy_with_retry(\n"`. -/
def retryCallPatNl : Text := ("match execute_buy_with_retry(").toList ++ [nl]

/-- `add_wrapper(content)`: no-op when the wrapper already exists,
`SystemExit` (`none`) when the insertion marker is missing, otherwise
inserts the snippet just before the marker. -/
def add_wrapper (content : Text) : Option Text :=
  if occursIn sigRetry content = true then some content
  else
    match pyFind content markerRetry with
    | none => none
    | some idx => some (content.take idx ++ wrapperSnippet ++ content.drop idx)

/-- `patch_call_sites(content)`: no-op when call sites are already
patched or no call site exists, otherwise replaces every
`match execute_buy(\n` with `match execute_buy_with_retry(\n`. -/
def patch_call_sites (content : Text) : Text :=
  if occursIn retryCallPat content = true then content
  else if occursIn buyCallPat content = false then content
  else replaceAll buyCallPat retryCallPatNl content

/-- The whole patch of `main`: `patched = add_wrapper(original)` then
`patched = patch_call_sites(patched)`. -/
def applyRetry (content : Text) : Option Text :=
  (add_wrapper content).map patch_call_sites

/- ## Properties of `str.replace` needed for idempotence -/

theorem leadsWith_self_append (p r : Text) : leadsWith p (p ++ r) = true :=
  (leadsWith_iff p (p ++ r)).mpr ⟨r, rfl⟩

theorem leadsWith_cons_false {ph c : Char} (pt w : Text) (h : ph ≠ c) :
    leadsWith (ph :: pt) (c :: w) = false := by
  simp [leadsWith, h]

theorem occursIn_of_split (p u v : Text) : occursIn p (u ++ p ++ v) = true :=
  (occursIn_iff p (u ++ p ++ v)).mpr ⟨u, v, rfl⟩

/-- A scan prefix containing no occurrence of the pattern's head
character is copied verbatim by `replaceAllGo`. -/
theorem replaceAllGo_copy (ph : Char) (pt q : Text) :
    ∀ (u0 rest : Text) (fuel : Nat), ph ∉ u0 → u0.length + rest.length ≤ fuel →
      replaceAllGo (ph :: pt) q fuel (u0 ++ rest) =
        u0 ++ replaceAllGo (ph :: pt) q (fuel - u0.length) rest := by
  intro u0
  induction u0 with
  | nil => intro rest fuel _ _; simp
  | cons c u ih =>
      intro rest fuel hmem hf
      cases fuel with
      | zero =>
          simp only [List.length_cons] at hf
          omega
      | succ f =>
          have hne : ph ≠ c := fun h => hmem (h ▸ List.mem_cons_self c u)
          have hlw : leadsWith (ph :: pt) (c :: (u ++ rest)) = false :=
            leadsWith_cons_false _ _ hne
          rw [List.cons_append, replaceAllGo, if_neg (by simp [hlw])]
          simp only [List.cons_append, List.length_cons, Nat.add_sub_add_right]
          congr 1
          exact ih rest f (fun h => hmem (List.mem_cons_of_mem c h))
            (by simp only [List.length_cons] at hf; omega)

/-- If the pattern occurs, the replacement appears in the output. -/
theorem replaceAllGo_inserts (ph : Char) (pt q : Text) :
    ∀ (fuel : Nat) (t : Text), occursIn (ph :: pt) t = true → t.length ≤ fuel →
      ∃ a b, replaceAllGo (ph :: pt) q fuel t = a ++ q ++ b := by
  intro fuel
  induction fuel with
  | zero =>
      intro t hocc hf
      have ht : t = [] := List.length_eq_zero.mp (by omega)
      subst ht
      simp [occursIn, leadsWith] at hocc
  | succ f ih =>
      intro t hocc hf
      cases t with
      | nil => simp [occursIn, leadsWith] at hocc
      | cons c rest =>
          rw [replaceAllGo]
          by_cases hm : leadsWith (ph :: pt) (c :: rest) = true
          · rw [if_pos ⟨by simp, hm⟩]
            exact ⟨[], replaceAllGo (ph :: pt) q f ((c :: rest).drop (ph :: pt).length),
              by simp⟩
          · rw [if_neg (fun hcon => hm hcon.2)]
            have hocc2 : occursIn (ph :: pt) rest = true := by
              simp only [occursIn, Bool.or_eq_true] at hocc
              exact hocc.resolve_left hm
            obtain ⟨a, b, hab⟩ := ih rest hocc2
              (by simp only [List.length_cons] at hf; omega)
            exact ⟨c :: a, b, by simp [hab]⟩

theorem prefix_long_mem (sh : Char) :
    ∀ (u p w : Text), leadsWith p (u ++ sh :: w) = true → u.length < p.length →
      sh ∈ p := by
  intro u
  induction u with
  | nil =>
      intro p w hl hlen
      cases p with
      | nil => simp at hlen
      | cons a pa =>
          simp only [List.nil_append, leadsWith, Bool.and_eq_true,
            decide_eq_true_eq] at hl
          exact List.mem_cons.mpr (Or.inl hl.1.symm)
  | cons c u2 ih =>
      intro p w hl hlen
      cases p with
      | nil => simp at hlen
      | cons a pa =>
          simp only [List.cons_append, leadsWith, Bool.and_eq_true,
            decide_eq_true_eq] at hl
          exact List.mem_cons_of_mem a
            (ih pa w hl.2 (by simp only [List.length_cons] at hlen; omega))

/-- Survival: a substring sharing no endpoint characters with the
pattern (`ph ∉ sig`, `sig`'s head not in the pattern) survives
replacement. -/
theorem replaceAllGo_keeps (ph sh : Char) (pt st q : Text)
    (h1 : ph ∉ sh :: st) (h2 : sh ∉ ph :: pt) :
    ∀ (fuel : Nat) (t u v : Text), t = u ++ (sh :: st) ++ v → t.length ≤ fuel →
      ∃ a b, replaceAllGo (ph :: pt) q fuel t = a ++ (sh :: st) ++ b := by
  intro fuel
  induction fuel with
  | zero =>
      intro t u v ht _
      exact ⟨u, v, by simpa [replaceAllGo] using ht⟩
  | succ f ih =>
      intro t u v ht hf
      cases u with
      | nil =>
          simp only [List.nil_append] at ht
          subst ht
          rw [replaceAllGo_copy ph pt q (sh :: st) v (f + 1) h1
              (by simp only [List.length_append, List.length_cons] at hf ⊢; omega)]
          exact ⟨[], replaceAllGo (ph :: pt) q (f + 1 - (sh :: st).length) v, by simp⟩
      | cons c u2 =>
          subst ht
          simp only [List.cons_append]
          rw [replaceAllGo]
          by_cases hm : leadsWith (ph :: pt) (c :: (u2 ++ (sh :: st) ++ v)) = true
          · rw [if_pos ⟨by simp, hm⟩]
            have hmem : (c :: u2).length < (ph :: pt).length → sh ∈ ph :: pt := by
              intro hgt
              refine prefix_long_mem sh (c :: u2) (ph :: pt) (st ++ v) ?_ hgt
              simpa [List.append_assoc] using hm
            have hlen : (ph :: pt).length ≤ (c :: u2).length := by
              by_contra hgt
              exact h2 (hmem (by omega))
            have hdrop : (c :: (u2 ++ (sh :: st) ++ v)).drop (ph :: pt).length
                = (c :: u2).drop (ph :: pt).length ++ ((sh :: st) ++ v) := by
              rw [show c :: (u2 ++ (sh :: st) ++ v)
                  = (c :: u2) ++ ((sh :: st) ++ v) by simp,
                List.drop_append_of_le_length hlen]
            rw [hdrop]
            obtain ⟨a, b, hab⟩ := ih
              ((c :: u2).drop (ph :: pt).length ++ ((sh :: st) ++ v))
              ((c :: u2).drop (ph :: pt).length) v (by simp [List.append_assoc])
              (by
                simp only [List.length_append, List.length_drop, List.length_cons,
                  List.length_append] at hf ⊢
                omega)
            exact ⟨q ++ a, b, by rw [hab]; simp [List.append_assoc]⟩
          · rw [if_neg (fun hcon => hm hcon.2)]
            obtain ⟨a, b, hab⟩ := ih (u2 ++ (sh :: st) ++ v) u2 v rfl
              (by simp only [List.length_append, List.length_cons] at hf ⊢; omega)
            exact ⟨c :: a, b, by rw [hab]; simp⟩

theorem occursIn_append_left (pre : Text) {p l : Text} (h : occursIn p l = true) :
    occursIn p (pre ++ l) = true := by
  induction pre with
  | nil => simpa using h
  | cons c pr ih =>
      simp only [List.cons_append, occursIn, Bool.or_eq_true]
      exact Or.inr ih

/-- Prepending text that does not contain the pattern's first character
neither creates nor destroys occurrences. -/
theorem occursIn_append_pre (sh : Char) (st pre l : Text) (hh : sh ∉ pre) :
    occursIn (sh :: st) (pre ++ l) = occursIn (sh :: st) l := by
  induction pre with
  | nil => simp
  | cons c pr ih =>
      have hne : sh ≠ c := fun h => hh (h ▸ List.mem_cons_self c pr)
      simp only [List.cons_append, occursIn, leadsWith_cons_false _ _ hne,
        Bool.false_or]
      exact ih (fun h => hh (List.mem_cons_of_mem c h))

/-- `sigRetry` decomposed for the survival lemma. -/
theorem sigRetry_shape : sigRetry = 'p' :: ("ub async fn execute_buy_with_retry").toList := by
  rfl

/-- `buyCallPat` decomposed for the scan lemmas. -/
theorem buyCallPat_shape :
    buyCallPat = 'm' :: (("atch execute_buy(").toList ++ [nl]) := by
  rfl

/-- The wrapper body's own `add_wrapper` guard survives `patch_call_sites`
and the patched call sites guard the second pass: applying the retry
patch to an already patched text changes nothing. -/
theorem applyRetry_second (x y : Text) (h : applyRetry x = some y) :
    applyRetry y = some y := by
  obtain ⟨z, hz, hy⟩ := Option.map_eq_some'.mp h
  have hsigz : occursIn sigRetry z = true := by
    unfold add_wrapper at hz
    by_cases hc : occursIn sigRetry x = true
    · rw [if_pos hc] at hz
      cases hz
      exact hc
    · rw [if_neg hc] at hz
      cases hfind : pyFind x markerRetry with
      | none =>
          rw [hfind] at hz
          exact Option.noConfusion hz
      | some idx =>
          rw [hfind] at hz
          cases hz
          have hW : occursIn sigRetry wrapperSnippet = true := by decide
          obtain ⟨a, b, hab⟩ := (occursIn_iff _ _).mp hW
          rw [hab]
          exact (occursIn_iff _ _).mpr
            ⟨x.take idx ++ a, b ++ x.drop idx, by simp [List.append_assoc]⟩
  have hyz : y = patch_call_sites z := hy.symm
  unfold patch_call_sites at hyz
  by_cases h1 : occursIn retryCallPat z = true
  · rw [if_pos h1] at hyz
    subst hyz
    unfold applyRetry add_wrapper
    rw [if_pos hsigz]
    simp only [Option.map_some']
    rw [patch_call_sites, if_pos h1]
  · rw [if_neg h1] at hyz
    by_cases h2 : occursIn buyCallPat z = false
    · rw [if_pos h2] at hyz
      subst hyz
      unfold applyRetry add_wrapper
      rw [if_pos hsigz]
      simp only [Option.map_some']
      rw [patch_call_sites, if_neg h1, if_pos h2]
    · rw [if_neg h2] at hyz
      have hocc : occursIn buyCallPat z = true := by
        cases hq : occursIn buyCallPat z
        · exact absurd hq h2
        · rfl
      have hq : ∃ a b,
          replaceAll buyCallPat retryCallPatNl z = a ++ retryCallPatNl ++ b := by
        rw [replaceAll, buyCallPat_shape]
        exact replaceAllGo_inserts 'm' _ retryCallPatNl z.length z
          (by rw [← buyCallPat_shape]; exact hocc) le_rfl
      obtain ⟨a, b, hab⟩ := hq
      have hrety : occursIn retryCallPat y = true := by
        rw [hyz, hab, show retryCallPatNl = retryCallPat ++ [nl] from rfl]
        rw [show a ++ (retryCallPat ++ [nl]) ++ b
            = a ++ retryCallPat ++ ([nl] ++ b) by simp [List.append_assoc]]
        exact occursIn_of_split _ _ _
      have hsigy : occursIn sigRetry y = true := by
        obtain ⟨u, v, huv⟩ := (occursIn_iff _ _).mp hsigz
        rw [hyz, replaceAll, buyCallPat_shape]
        obtain ⟨a2, b2, hab2⟩ :=
          replaceAllGo_keeps 'm' 'p'
            (("atch execute_buy(").toList ++ [nl])
            (("ub async fn execute_buy_with_retry").toList)
            retryCallPatNl (by decide) (by decide) z.length z u v
            (by rw [huv, sigRetry_shape]) le_rfl
        rw [hab2, show ('p' :: ("ub async fn execute_buy_with_retry").toList)
            = sigRetry from rfl]
        exact occursIn_of_split _ _ _
      unfold applyRetry add_wrapper
      rw [if_pos hsigy]
      simp only [Option.map_some']
      rw [patch_call_sites, if_pos hrety]

/- ## `comment_out_function_duplicates` (`fix_sniper_bot_stages.py`,
lines 146-183) -/

/-- Python `str.lstrip()`. -/
def lstrip (l : Text) : Text := l.dropWhile isPyWs

/-- `line.lstrip().startswith("//")`. -/
def isCommented (l : Text) : Bool := leadsWith (("//").toList) (lstrip l)

/-- One line of the comment-out loop: lines already starting with `//`
are left alone, others get a `"// "` prefix. -/
def commentLine (l : Text) : Text :=
  if isCommented l = true then l else ("// ").toList ++ l

/-- One character of the brace-depth scan of stage 3 (`started` is set
by any `{`). -/
def braceLineStep : (Int × Bool) → Char → (Int × Bool)
  | (d, st), c =>
      if c = '{' then (d + 1, true)
      else if c = '}' then (d - 1, st)
      else (d, st)

/-- The `for j in range(start_idx, len(lines))` loop: after each line the
loop breaks when `started and depth == 0`; `j - 1` on exhaustion is the
last processed index (`end_idx = len(lines) - 1`). -/
def findEndGo : List Text → Int → Bool → Nat → Nat
  | [], _, _, j => j - 1
  | l :: ls, d, st, j =>
      let r := l.foldl braceLineStep (d, st)
      if r.2 = true ∧ r.1 = 0 then j
      else findEndGo ls r.1 r.2 (j + 1)

/-- `end_idx` of a duplicate starting at `startIdx`. -/
def findEnd (lines : List Text) (startIdx : Nat) : Nat :=
  findEndGo (lines.drop startIdx) 0 false startIdx

/-- The `for k in range(start_idx, end_idx + 1)` commenting loop,
positionally: lines with index in `[a, b]` are commented. -/
def commentRangeGo (a b : Nat) : Nat → List Text → List Text
  | _, [] => []
  | k, l :: ls =>
      (if a ≤ k ∧ k ≤ b then commentLine l else l) :: commentRangeGo a b (k + 1) ls

/-- Comment out the 0-based line range `[a, b]`. -/
def commentRange (lines : List Text) (a b : Nat) : List Text :=
  commentRangeGo a b 0 lines

/-- `indices = [i for i, l in enumerate(lines) if signature in l]`. -/
def dupIndices (sig : Text) (lines : List Text) : List Nat :=
  (List.range lines.length).filter (fun i => occursIn sig (lines.getD i []) = true)

/-- The sequential processing of the duplicate occurrences (`lines` is
mutated in place between duplicates, and each duplicate's end is
computed on the current lines). -/
def foldRanges (idxs : List Nat) (cur : List Text) : List Text :=
  idxs.foldl (fun ls idx => commentRange ls idx (findEnd ls idx)) cur

/-- `comment_out_function_duplicates(signature)`: keep the first
occurrence of the signature, comment out the body of every later one. -/
def comment_out_function_duplicates (sig : Text) (lines : List Text) : List Text :=
  let indices := dupIndices sig lines
  if indices.length ≤ 1 then lines
  else foldRanges (indices.drop 1) lines

/- ## Stage-3 idempotence machinery -/

theorem foldl_braceLineStep (l : Text) (d : Int) (st : Bool) :
    l.foldl braceLineStep (d, st) =
      (d + l.count '{' - l.count '}', st || decide (0 < l.count '{')) := by
  induction l generalizing d st with
  | nil => simp
  | cons c rest ih =>
      simp only [List.foldl_cons, braceLineStep]
      by_cases hc : c = '{'
      · rw [if_pos hc, ih]
        simp [hc, List.count_cons, Prod.ext_iff]
        omega
      · by_cases hc2 : c = '}'
        · rw [if_neg hc, if_pos hc2, ih]
          simp [hc, hc2, List.count_cons, Prod.ext_iff, Ne.symm]
          omega
        · rw [if_neg hc, if_neg hc2, ih]
          simp [List.count_cons, Ne.symm hc, Ne.symm hc2]

theorem isCommented_commentLine (l : Text) : isCommented (commentLine l) = true := by
  rw [commentLine]
  by_cases h : isCommented l = true
  · rwa [if_pos h]
  · rw [if_neg h]
    rfl

theorem commentLine_eq_self {l : Text} (h : isCommented l = true) :
    commentLine l = l := by
  rw [commentLine, if_pos h]

theorem commentLine_commentLine (l : Text) :
    commentLine (commentLine l) = commentLine l :=
  commentLine_eq_self (isCommented_commentLine l)

theorem count_commentLine (c : Char) (l : Text) (h1 : c ≠ '/') (h2 : c ≠ ' ') :
    (commentLine l).count c = l.count c := by
  rw [commentLine]
  by_cases h : isCommented l = true
  · rw [if_pos h]
  · rw [if_neg h]
    simp [show ("// ").toList = ['/', '/', ' '] from rfl, List.count_cons, h1, h2,
      List.count_append]

theorem occursIn_commentLine (sh : Char) (st l : Text) (h1 : sh ≠ '/') (h2 : sh ≠ ' ') :
    occursIn (sh :: st) (commentLine l) = occursIn (sh :: st) l := by
  rw [commentLine]
  by_cases h : isCommented l = true
  · rw [if_pos h]
  · rw [if_neg h]
    exact occursIn_append_pre sh st _ l (by simp [h1, h2])

theorem commentRangeGo_length (a b k : Nat) (ls : List Text) :
    (commentRangeGo a b k ls).length = ls.length := by
  induction ls generalizing k with
  | nil => rfl
  | cons l rest ih => simp [commentRangeGo, ih]

theorem commentRangeGo_getD (a b : Nat) (ls : List Text) :
    ∀ (k j : Nat), j < ls.length →
      (commentRangeGo a b k ls).getD j [] =
        if a ≤ k + j ∧ k + j ≤ b then commentLine (ls.getD j []) else ls.getD j [] := by
  induction ls with
  | nil =>
      intro k j hj
      simp at hj
  | cons l rest ih =>
      intro k j hj
      cases j with
      | zero => simp [commentRangeGo]
      | succ j' =>
          simp only [commentRangeGo, List.getD_cons_succ]
          rw [ih (k + 1) j' (by simp only [List.length_cons] at hj; omega)]
          have he : k + 1 + j' = k + (j' + 1) := by omega
          rw [he]

theorem commentRange_length (ls : List Text) (a b : Nat) :
    (commentRange ls a b).length = ls.length :=
  commentRangeGo_length a b 0 ls

theorem commentRange_getD (ls : List Text) (a b j : Nat) (hj : j < ls.length) :
    (commentRange ls a b).getD j [] =
      if a ≤ j ∧ j ≤ b then commentLine (ls.getD j []) else ls.getD j [] := by
  rw [commentRange, commentRangeGo_getD a b ls 0 j hj]
  simp

/-- The relationship between the original lines and any intermediate
state of the commenting loop: same number of lines, each either
untouched or commented. -/
def CommentedFrom (orig cur : List Text) : Prop :=
  cur.length = orig.length ∧
    ∀ k, k < orig.length →
      cur.getD k [] = orig.getD k [] ∨ cur.getD k [] = commentLine (orig.getD k [])

theorem commentedFrom_refl (orig : List Text) : CommentedFrom orig orig :=
  ⟨rfl, fun _ _ => Or.inl rfl⟩

theorem commentedFrom_commentRange {orig cur : List Text} (a b : Nat)
    (h : CommentedFrom orig cur) : CommentedFrom orig (commentRange cur a b) := by
  refine ⟨by rw [commentRange_length, h.1], ?_⟩
  intro k hk
  have hk2 : k < cur.length := by rw [h.1]; exact hk
  rw [commentRange_getD cur a b k hk2]
  by_cases hr : a ≤ k ∧ k ≤ b
  · rw [if_pos hr]
    rcases h.2 k hk with h2 | h2 <;> rw [h2]
    · exact Or.inr rfl
    · exact Or.inr (commentLine_commentLine _)
  · rw [if_neg hr]
    exact h.2 k hk

theorem count_of_commentedFrom {orig cur : List Text} (h : CommentedFrom orig cur)
    (c : Char) (h1 : c ≠ '/') (h2 : c ≠ ' ') :
    ∀ k, k < orig.length → (cur.getD k []).count c = (orig.getD k []).count c := by
  intro k hk
  rcases h.2 k hk with h3 | h3 <;> rw [h3]
  exact count_commentLine c _ h1 h2

theorem occursIn_of_commentedFrom {orig cur : List Text} (h : CommentedFrom orig cur)
    (sh : Char) (st : Text) (h1 : sh ≠ '/') (h2 : sh ≠ ' ') :
    ∀ k, k < orig.length →
      occursIn (sh :: st) (cur.getD k []) = occursIn (sh :: st) (orig.getD k []) := by
  intro k hk
  rcases h.2 k hk with h3 | h3 <;> rw [h3]
  exact occursIn_commentLine sh st _ h1 h2

theorem dupIndices_of_commentedFrom {orig cur : List Text} (h : CommentedFrom orig cur)
    (sh : Char) (st : Text) (h1 : sh ≠ '/') (h2 : sh ≠ ' ') :
    dupIndices (sh :: st) cur = dupIndices (sh :: st) orig := by
  rw [dupIndices, dupIndices, h.1]
  refine List.filter_congr ?_
  intro i hi
  rw [occursIn_of_commentedFrom h sh st h1 h2 i (List.mem_range.mp hi)]

theorem getD_drop (l : List Text) :
    ∀ n k, (l.drop n).getD k [] = l.getD (n + k) [] := by
  induction l with
  | nil => intro n k; simp
  | cons x xs ih =>
      intro n k
      cases n with
      | zero => simp
      | succ n' =>
          simp only [List.drop_succ_cons]
          rw [ih n' k, show n' + 1 + k = (n' + k) + 1 from by omega,
            List.getD_cons_succ]

theorem findEndGo_congr :
    ∀ (ls1 ls2 : List Text) (d : Int) (st : Bool) (j : Nat),
      ls1.length = ls2.length →
      (∀ k, k < ls1.length →
        (ls1.getD k []).count '{' = (ls2.getD k []).count '{' ∧
        (ls1.getD k []).count '}' = (ls2.getD k []).count '}') →
      findEndGo ls1 d st j = findEndGo ls2 d st j := by
  intro ls1
  induction ls1 with
  | nil =>
      intro ls2 d st j hlen _
      have : ls2 = [] := List.length_eq_zero.mp (by simpa using hlen.symm)
      rw [this]
  | cons l1 r1 ih =>
      intro ls2 d st j hlen hcnt
      cases ls2 with
      | nil => simp at hlen
      | cons l2 r2 =>
          have h0 := hcnt 0 (by simp)
          simp only [List.getD_cons_zero] at h0
          simp only [findEndGo, foldl_braceLineStep, h0.1, h0.2]
          have hr : ∀ k, k < r1.length →
              (r1.getD k []).count '{' = (r2.getD k []).count '{' ∧
              (r1.getD k []).count '}' = (r2.getD k []).count '}' := by
            intro k hk
            have := hcnt (k + 1) (by simp; omega)
            simpa using this
          have hlen2 : r1.length = r2.length := by simpa using hlen
          split_ifs
          · rfl
          · exact ih r2 _ _ _ hlen2 hr

theorem findEnd_of_commentedFrom {orig cur : List Text} (h : CommentedFrom orig cur)
    (idx : Nat) : findEnd cur idx = findEnd orig idx := by
  rw [findEnd, findEnd]
  refine findEndGo_congr _ _ 0 false idx (by simp [h.1]) ?_
  intro k hk
  rw [getD_drop, getD_drop]
  have hlen := h.1
  have hk2 : idx + k < orig.length := by
    simp only [List.length_drop] at hk
    omega
  exact ⟨count_of_commentedFrom h '{' (by decide) (by decide) _ hk2,
    count_of_commentedFrom h '}' (by decide) (by decide) _ hk2⟩

theorem commentRangeGo_id (a b : Nat) (ls : List Text) :
    ∀ k0, (∀ k, a ≤ k0 + k → k0 + k ≤ b → k < ls.length →
        isCommented (ls.getD k []) = true) →
      commentRangeGo a b k0 ls = ls := by
  induction ls with
  | nil => intro k0 _; rfl
  | cons l rest ih =>
      intro k0 h
      rw [commentRangeGo]
      have h0 : (if a ≤ k0 ∧ k0 ≤ b then commentLine l else l) = l := by
        by_cases hr : a ≤ k0 ∧ k0 ≤ b
        · rw [if_pos hr]
          refine commentLine_eq_self ?_
          have := h 0 (by omega) (by omega) (by simp)
          simpa using this
        · rw [if_neg hr]
      have h2 : commentRangeGo a b (k0 + 1) rest = rest := by
        refine ih (k0 + 1) ?_
        intro k hk1 hk2 hk3
        have := h (k + 1) (by omega) (by omega)
          (by simp only [List.length_cons]; omega)
        simpa using this
      rw [h0, h2]

theorem commentRange_id (ls : List Text) (a b : Nat)
    (h : ∀ k, a ≤ k → k ≤ b → k < ls.length → isCommented (ls.getD k []) = true) :
    commentRange ls a b = ls := by
  rw [commentRange]
  refine commentRangeGo_id a b ls 0 ?_
  intro k hk1 hk2 hk3
  exact h k (by omega) (by omega) hk3

theorem foldRanges_spec (orig : List Text) :
    ∀ (idxs : List Nat) (cur : List Text), CommentedFrom orig cur →
      CommentedFrom orig (foldRanges idxs cur) ∧
      (∀ k, k < orig.length → isCommented (cur.getD k []) = true →
        isCommented ((foldRanges idxs cur).getD k []) = true) ∧
      (∀ i ∈ idxs, ∀ k, i ≤ k → k ≤ findEnd orig i → k < orig.length →
        isCommented ((foldRanges idxs cur).getD k []) = true) := by
  intro idxs
  induction idxs with
  | nil =>
      intro cur h
      exact ⟨h, fun _ _ hc => hc, by simp⟩
  | cons i rest ih =>
      intro cur h
      have hstep : foldRanges (i :: rest) cur =
          foldRanges rest (commentRange cur i (findEnd cur i)) := rfl
      set cur1 := commentRange cur i (findEnd cur i) with hcur1
      have h1 : CommentedFrom orig cur1 := commentedFrom_commentRange _ _ h
      have hE : findEnd cur i = findEnd orig i := findEnd_of_commentedFrom h i
      have hmono : ∀ k, k < orig.length → isCommented (cur.getD k []) = true →
          isCommented (cur1.getD k []) = true := by
        intro k hk hc
        rw [hcur1, commentRange_getD cur i (findEnd cur i) k (by rw [h.1]; exact hk)]
        by_cases hr : i ≤ k ∧ k ≤ findEnd cur i
        · rw [if_pos hr]
          exact isCommented_commentLine _
        · rwa [if_neg hr]
      have hcov : ∀ k, i ≤ k → k ≤ findEnd orig i → k < orig.length →
          isCommented (cur1.getD k []) = true := by
        intro k hk1 hk2 hk
        rw [hcur1, commentRange_getD cur i (findEnd cur i) k (by rw [h.1]; exact hk),
          if_pos ⟨hk1, by rw [hE]; exact hk2⟩]
        exact isCommented_commentLine _
      obtain ⟨ha, hb, hc⟩ := ih cur1 h1
      refine ⟨by rwa [hstep], ?_, ?_⟩
      · intro k hk hcm
        rw [hstep]
        exact hb k hk (hmono k hk hcm)
      · intro i2 hi2 k hk1 hk2 hk
        rw [hstep]
        rcases List.mem_cons.mp hi2 with rfl | hi2
        · exact hb k hk (hcov k hk1 hk2 hk)
        · exact hc i2 hi2 k hk1 hk2 hk

theorem foldRanges_id (y : List Text) :
    ∀ idxs : List Nat, (∀ i ∈ idxs, commentRange y i (findEnd y i) = y) →
      foldRanges idxs y = y := by
  intro idxs
  induction idxs with
  | nil => intro _; rfl
  | cons i rest ih =>
      intro h
      have hstep : foldRanges (i :: rest) y =
          foldRanges rest (commentRange y i (findEnd y i)) := rfl
      rw [hstep, h i (List.mem_cons_self i rest)]
      exact ih (fun j hj => h j (List.mem_cons_of_mem i hj))

/-- Second application of the duplicate-commenting stage is a no-op:
the commented duplicates still contain the signature (so the same
occurrences are found), the `"// "` prefixes change no brace counts (so
the same ranges are computed), and every line in those ranges is already
commented. -/
theorem comment_out_function_duplicates_idem (sh : Char) (st : Text)
    (h1 : sh ≠ '/') (h2 : sh ≠ ' ') (lines : List Text) :
    comment_out_function_duplicates (sh :: st)
        (comment_out_function_duplicates (sh :: st) lines) =
      comment_out_function_duplicates (sh :: st) lines := by
  by_cases hle : (dupIndices (sh :: st) lines).length ≤ 1
  · have hfl : comment_out_function_duplicates (sh :: st) lines = lines := by
      rw [comment_out_function_duplicates, if_pos hle]
    rw [hfl]
    exact hfl
  · set idxs := dupIndices (sh :: st) lines with hidxs
    have hf : comment_out_function_duplicates (sh :: st) lines =
        foldRanges (idxs.drop 1) lines := by
      rw [comment_out_function_duplicates, if_neg hle]
    set y := foldRanges (idxs.drop 1) lines with hy
    obtain ⟨hcf, _, hcov⟩ :=
      foldRanges_spec lines (idxs.drop 1) lines (commentedFrom_refl lines)
    rw [← hy] at hcf hcov
    have hidx2 : dupIndices (sh :: st) y = idxs :=
      dupIndices_of_commentedFrom hcf sh st h1 h2
    have hid : ∀ i ∈ idxs.drop 1, commentRange y i (findEnd y i) = y := by
      intro i hi
      have hEy : findEnd y i = findEnd lines i := findEnd_of_commentedFrom hcf i
      refine commentRange_id y i (findEnd y i) ?_
      intro k hk1 hk2 hk3
      refine hcov i hi k hk1 ?_ ?_
      · rw [hEy] at hk2
        exact hk2
      · rw [hcf.1] at hk3
        exact hk3
    rw [hf]
    rw [comment_out_function_duplicates, hidx2, if_neg hle]
    exact foldRanges_id y (idxs.drop 1) hid

/- ## Claim C8 -/

/-- C8: the two patch families cited by the claim are idempotent on
second application.  For the retry patch, whenever one application
succeeds, a second application returns its input unchanged (the inserted
wrapper satisfies `add_wrapper`'s guard and the rewritten call sites
satisfy `patch_call_sites`' guard).  For the duplicate-commenting stage,
a second run changes nothing, for any signature not starting with `/` or
a space (every signature used by the source starts with `pub`). -/
theorem c8_second_application_noop :
    (∀ x y : Text, applyRetry x = some y → applyRetry y = some y) ∧
    (∀ (sh : Char) (st : Text) (lines : List Text), sh ≠ '/' → sh ≠ ' ' →
      comment_out_function_duplicates (sh :: st)
          (comment_out_function_duplicates (sh :: st) lines) =
        comment_out_function_duplicates (sh :: st) lines) :=
  ⟨applyRetry_second, fun sh st lines h1 h2 =>
    comment_out_function_duplicates_idem sh st h1 h2 lines⟩

/-- A file with two occurrences of `fn dup`. -/
def exDupLines : List Text :=
  [("fn dup() \x7b").toList, ("  x;").toList, ("\x7d").toList,
   ("fn dup() \x7b").toList, ("  y;").toList, ("\x7d").toList, ("tail").toList]

/-- Witness: both idempotence statements at concrete inputs. -/
theorem c8_second_application_noop_witness :
    applyRetry sigRetry = some sigRetry ∧
      comment_out_function_duplicates (("fn dup").toList)
          (comment_out_function_duplicates (("fn dup").toList) exDupLines) =
        comment_out_function_duplicates (("fn dup").toList) exDupLines := by
  constructor
  · exact c8_second_application_noop.1 sigRetry sigRetry (by rfl)
  · exact c8_second_application_noop.2 'f' (("n dup").toList) exDupLines
      (by decide) (by decide)

end SCSTB
